import Mathlib

/-!
Verification of the Mooney M20J VREF calculator core logic.

The development shallowly embeds the algorithmic core of the repository:

* the piecewise-linear performance interpolator and the derived
  approach/maneuvering speeds (`src/components/CalculatorSection.tsx`),
* the METAR gust extractor and the TAF text parser
  (`src/services/weatherService.ts`),
* the active-forecast-period selector (`src/components/WeatherSection.tsx`).

JavaScript numbers are modelled as rationals (`ℚ`); the arithmetic the claims
are about is exact in the ranges involved.  Strings are modelled as `List Char`.
-/

/-! ## Performance interpolator (CalculatorSection.tsx) -/

/-- One row of a performance table: `{ lbs: number, speeds: Record<string, number> }`. -/
structure ChartDataPoint where
  lbs : ℚ
  speeds : List (String × ℚ)
deriving DecidableEq, Repr

/-- First-match association lookup, modelling JavaScript record access. -/
def lookupS (k : String) : List (String × ℚ) → Option ℚ
  | [] => none
  | (k', v) :: l => if k' = k then some v else lookupS k l

/-- `point.speeds[configKey] || 0`: a missing (or zero) speed yields 0. -/
def speedFor (p : ChartDataPoint) (key : String) : ℚ :=
  (lookupS key p.speeds).getD 0

/-- `data[data.length - 1]` for the nonempty list `d :: rest`. -/
def lastOf : ChartDataPoint → List ChartDataPoint → ChartDataPoint
  | d, [] => d
  | _, c :: cs => lastOf c cs

/-- `Math.max(data[0].lbs, Math.min(data[data.length-1].lbs, w))`. -/
def clampW : List ChartDataPoint → ℚ → ℚ
  | [], w => w
  | first :: rest, w => max first.lbs (min (lastOf first rest).lbs w)

/-- The bracketing loop of `interpolate`: scan consecutive pairs, first match
wins (`safeWeight >= data[i].lbs && safeWeight <= data[i+1].lbs`). -/
def findBracket (safe : ℚ) : List ChartDataPoint → Option (ChartDataPoint × ChartDataPoint)
  | a :: b :: rest =>
    if a.lbs ≤ safe ∧ safe ≤ b.lbs then some (a, b) else findBracket safe (b :: rest)
  | _ => none

/-- `interpolate(currentWeight, configKey, data)` from CalculatorSection.tsx.
The source indexes `data[0]` unconditionally and therefore requires a nonempty
table; the `[]` branch (which would throw in JavaScript) returns 0 and is
never reached under that precondition. -/
def interpolate (currentWeight : ℚ) (configKey : String) (data : List ChartDataPoint) : ℚ :=
  match data with
  | [] => 0
  | first :: rest =>
    let upper0 := lastOf first rest
    let safeWeight := clampW (first :: rest) currentWeight
    let lu := match findBracket safeWeight (first :: rest) with
      | some lu => lu
      | none => (first, upper0)
    let lower := lu.1
    let upper := lu.2
    if lower.lbs = upper.lbs then speedFor lower configKey
    else
      let lowerVal := speedFor lower configKey
      let upperVal := speedFor upper configKey
      let frac := (safeWeight - lower.lbs) / (upper.lbs - lower.lbs)
      lowerVal + frac * (upperVal - lowerVal)

/-- The precondition stated by the spec: samples are weight-ascending. -/
def Ascending (data : List ChartDataPoint) : Prop :=
  data.Pairwise (fun p q => p.lbs < q.lbs)

/-- The two-point linear interpolation value used between a bracketing pair. -/
def lerpVal (a b : ChartDataPoint) (key : String) (c : ℚ) : ℚ :=
  speedFor a key + (c - a.lbs) / (b.lbs - a.lbs) * (speedFor b key - speedFor a key)

/-! ### Helper lemmas about the interpolator -/

theorem lastOf_concat (l : List ChartDataPoint) (x : ChartDataPoint) :
    ∀ d, lastOf d (l ++ [x]) = x := by
  induction l with
  | nil => intro d; rfl
  | cons y ys ih => intro d; simpa [lastOf] using ih y

theorem lastOf_of_cons_eq_concat {first : ChartDataPoint} {rest L : List ChartDataPoint}
    {x : ChartDataPoint} (h : first :: rest = L ++ [x]) : lastOf first rest = x := by
  induction L generalizing first rest with
  | nil => simp at h; simp [h.1, h.2, lastOf]
  | cons y L' ih =>
    cases rest with
    | nil =>
      rcases L' with _ | ⟨z, L''⟩ <;> simp_all
    | cons r rs =>
      simp only [List.cons_append, List.cons.injEq] at h
      simp only [lastOf]
      exact ih h.2

theorem lastOf_mem (rest : List ChartDataPoint) :
    ∀ d, lastOf d rest ∈ d :: rest := by
  induction rest with
  | nil => intro d; simp [lastOf]
  | cons c cs ih =>
    intro d
    have := ih c
    simp only [lastOf]
    rcases List.mem_cons.mp this with h | h
    · simp [h]
    · simp [h]

/-- In an ascending table the first weight is at most the last weight. -/
theorem first_le_lastOf {first : ChartDataPoint} {rest : List ChartDataPoint}
    (hA : Ascending (first :: rest)) : first.lbs ≤ (lastOf first rest).lbs := by
  rcases List.mem_cons.mp (lastOf_mem rest first) with h | h
  · rw [h]
  · exact le_of_lt ((List.pairwise_cons.mp hA).1 _ h)

theorem clampW_mono {data : List ChartDataPoint} {w1 w2 : ℚ} (h : w1 ≤ w2) :
    clampW data w1 ≤ clampW data w2 := by
  cases data with
  | nil => simpa [clampW] using h
  | cons first rest =>
    simp only [clampW]
    exact max_le_max le_rfl (min_le_min le_rfl h)

theorem lerpVal_left (a b : ChartDataPoint) (key : String) :
    lerpVal a b key a.lbs = speedFor a key := by
  simp [lerpVal]

theorem lerpVal_right (a b : ChartDataPoint) (key : String) (h : a.lbs ≠ b.lbs) :
    lerpVal a b key b.lbs = speedFor b key := by
  have hne : b.lbs - a.lbs ≠ 0 := sub_ne_zero.mpr (Ne.symm h)
  field_simp [lerpVal]

/-- Soundness of the first-match bracket scan: whenever a consecutive pair
`(a, b)` of an ascending table brackets `c`, the scan succeeds and the pair it
returns yields the same interpolated value as `(a, b)`. -/
theorem findBracket_lerp (key : String) (c : ℚ) :
    ∀ (pre : List ChartDataPoint) (a b : ChartDataPoint) (post : List ChartDataPoint),
      Ascending (pre ++ a :: b :: post) → a.lbs ≤ c → c ≤ b.lbs →
      ∃ a' b', findBracket c (pre ++ a :: b :: post) = some (a', b') ∧
        a'.lbs < b'.lbs ∧ lerpVal a' b' key c = lerpVal a b key c := by
  intro pre
  induction pre with
  | nil =>
    intro a b post hA h1 h2
    refine ⟨a, b, ?_, ?_, rfl⟩
    · simp [findBracket, h1, h2]
    · exact (List.pairwise_cons.mp hA).1 b (by simp)
  | cons p pre' ih =>
    intro a b post hA h1 h2
    have hA' : Ascending (pre' ++ a :: b :: post) := (List.pairwise_cons.mp hA).2
    have hplt : ∀ q ∈ pre' ++ a :: b :: post, p.lbs < q.lbs := (List.pairwise_cons.mp hA).1
    cases hpre : pre' with
    | nil =>
      subst hpre
      simp only [List.nil_append] at hA' ⊢
      by_cases hcond : p.lbs ≤ c ∧ c ≤ a.lbs
      · have hca : c = a.lbs := le_antisymm hcond.2 h1
        have hpa : p.lbs < a.lbs := hplt a (by simp)
        refine ⟨p, a, ?_, hpa, ?_⟩
        · simp [findBracket, hcond.1, hcond.2]
        · rw [hca, lerpVal_right p a key (ne_of_lt hpa), lerpVal_left]
      · obtain ⟨a', b', heq, hlt, hval⟩ := ih a b post hA' h1 h2
        refine ⟨a', b', ?_, hlt, hval⟩
        show (if p.lbs ≤ c ∧ c ≤ a.lbs then some (p, a)
              else findBracket c (a :: b :: post)) = some (a', b')
        rw [if_neg hcond]
        simpa using heq
    | cons q pre'' =>
      subst hpre
      by_cases hcond : p.lbs ≤ c ∧ c ≤ q.lbs
      · exfalso
        have hqa : q.lbs < a.lbs := by
          have hq : q ∈ (q :: pre'') ++ a :: b :: post := by simp
          have hAq : Ascending ((q :: pre'') ++ a :: b :: post) := hA'
          exact (List.pairwise_cons.mp hAq).1 a (by simp)
        exact absurd h1 (not_le.mpr (lt_of_le_of_lt hcond.2 hqa))
      · obtain ⟨a', b', heq, hlt, hval⟩ := ih a b post hA' h1 h2
        refine ⟨a', b', ?_, hlt, hval⟩
        show (if p.lbs ≤ c ∧ c ≤ q.lbs then some (p, q)
              else findBracket c (q :: (pre'' ++ a :: b :: post))) = some (a', b')
        rw [if_neg hcond]
        exact heq

theorem interpolate_of_findBracket {first : ChartDataPoint} {rest : List ChartDataPoint}
    {a' b' : ChartDataPoint} (key : String) (w : ℚ)
    (heq : findBracket (clampW (first :: rest) w) (first :: rest) = some (a', b'))
    (hlt : a'.lbs < b'.lbs) :
    interpolate w key (first :: rest) = lerpVal a' b' key (clampW (first :: rest) w) := by
  simp only [interpolate, heq]
  rw [if_neg (ne_of_lt hlt)]
  rfl

/-- Characterization of `interpolate` on an ascending table: if a consecutive
pair `(a, b)` brackets the clamped target weight, the result is the linear
interpolation between `a` and `b` at the clamped weight. -/
theorem interpolate_bracket (pre : List ChartDataPoint) (a b : ChartDataPoint)
    (post : List ChartDataPoint) (key : String) (w : ℚ)
    (hA : Ascending (pre ++ a :: b :: post))
    (h1 : a.lbs ≤ clampW (pre ++ a :: b :: post) w)
    (h2 : clampW (pre ++ a :: b :: post) w ≤ b.lbs) :
    interpolate w key (pre ++ a :: b :: post) =
      lerpVal a b key (clampW (pre ++ a :: b :: post) w) := by
  obtain ⟨a', b', heq, hlt, hval⟩ :=
    findBracket_lerp key (clampW (pre ++ a :: b :: post) w) pre a b post hA h1 h2
  cases pre with
  | nil =>
    simp only [List.nil_append] at heq hval ⊢
    rw [interpolate_of_findBracket key w heq hlt]
    exact hval
  | cons p pre' =>
    simp only [List.cons_append] at heq hval ⊢
    rw [interpolate_of_findBracket key w heq hlt]
    exact hval

theorem interpolate_single (p : ChartDataPoint) (key : String) (w : ℚ) :
    interpolate w key [p] = speedFor p key := by
  simp [interpolate, findBracket, clampW, lastOf]

/-! ### Concrete data: the built-in Mooney M20J profile (constants.ts) -/

def mooneyP1 : ChartDataPoint := ⟨2200, [("clean", 56), ("flaps15", 53), ("flaps33", 50)]⟩
def mooneyP2 : ChartDataPoint := ⟨2400, [("clean", 59), ("flaps15", 55), ("flaps33", 52)]⟩
def mooneyP3 : ChartDataPoint := ⟨2600, [("clean", 123/2), ("flaps15", 113/2), ("flaps33", 107/2)]⟩
def mooneyP4 : ChartDataPoint := ⟨2740, [("clean", 63), ("flaps15", 58), ("flaps33", 56)]⟩

def mooneyData : List ChartDataPoint := [mooneyP1, mooneyP2, mooneyP3, mooneyP4]

/-! ### Claims C1 and C2 -/

/-- **C1.** For every weight-ascending sample table, configuration key and
target weight whose clamped value lies strictly between two consecutive samples
`lower` and `upper`, `interpolate` returns
`lowerSpeed + ((clampedWeight - lower.weight) / (upper.weight - lower.weight)) * (upperSpeed - lowerSpeed)`,
where a speed missing for the key defaults to 0 (this defaulting is built into
`speedFor`); and on a degenerate single-point table, where the bracketing pair
is the sample paired with itself (`lower.weight == upper.weight`),
`interpolate` returns that sample's speed for the key directly. -/
theorem C1_interpolate_linear :
    (∀ (pre : List ChartDataPoint) (lower upper : ChartDataPoint)
        (post : List ChartDataPoint) (key : String) (w : ℚ),
        Ascending (pre ++ lower :: upper :: post) →
        lower.lbs < clampW (pre ++ lower :: upper :: post) w →
        clampW (pre ++ lower :: upper :: post) w < upper.lbs →
        interpolate w key (pre ++ lower :: upper :: post) =
          speedFor lower key +
            (clampW (pre ++ lower :: upper :: post) w - lower.lbs) /
                (upper.lbs - lower.lbs) *
              (speedFor upper key - speedFor lower key)) ∧
    (∀ (p : ChartDataPoint) (key : String) (w : ℚ),
        interpolate w key [p] = speedFor p key) := by
  constructor
  · intro pre lower upper post key w hA h1 h2
    exact interpolate_bracket pre lower upper post key w hA (le_of_lt h1) (le_of_lt h2)
  · exact interpolate_single

/-- Closed instance of C1 on the built-in M20J table at weight 2500. -/
theorem C1_witness :
    Ascending ([mooneyP1] ++ mooneyP2 :: mooneyP3 :: [mooneyP4]) ∧
    mooneyP2.lbs < clampW ([mooneyP1] ++ mooneyP2 :: mooneyP3 :: [mooneyP4]) 2500 ∧
    clampW ([mooneyP1] ++ mooneyP2 :: mooneyP3 :: [mooneyP4]) 2500 < mooneyP3.lbs ∧
    interpolate 2500 "clean" ([mooneyP1] ++ mooneyP2 :: mooneyP3 :: [mooneyP4]) =
      speedFor mooneyP2 "clean" +
        (clampW ([mooneyP1] ++ mooneyP2 :: mooneyP3 :: [mooneyP4]) 2500 - mooneyP2.lbs) /
            (mooneyP3.lbs - mooneyP2.lbs) *
          (speedFor mooneyP3 "clean" - speedFor mooneyP2 "clean") := by
  have hA : Ascending ([mooneyP1] ++ mooneyP2 :: mooneyP3 :: [mooneyP4]) := by
    simp [Ascending, mooneyP1, mooneyP2, mooneyP3, mooneyP4]
    norm_num
  have h1 : mooneyP2.lbs < clampW ([mooneyP1] ++ mooneyP2 :: mooneyP3 :: [mooneyP4]) 2500 := by
    simp [clampW, lastOf, mooneyP1, mooneyP2, mooneyP3, mooneyP4]
    norm_num
  have h2 : clampW ([mooneyP1] ++ mooneyP2 :: mooneyP3 :: [mooneyP4]) 2500 < mooneyP3.lbs := by
    simp [clampW, lastOf, mooneyP1, mooneyP2, mooneyP3, mooneyP4]
    norm_num
  exact ⟨hA, h1, h2, C1_interpolate_linear.1 [mooneyP1] mooneyP2 mooneyP3 [mooneyP4] "clean" 2500 hA h1 h2⟩

/-- **C2.** On a weight-ascending table with at least one sample,
`interpolate` clamps: at or below the first sample's weight it returns exactly
the first sample's value for the key, and at or above the last sample's weight
it returns exactly the last sample's value. -/
theorem C2_interpolate_clamps :
    (∀ (first : ChartDataPoint) (rest : List ChartDataPoint) (key : String) (w : ℚ),
        Ascending (first :: rest) → w ≤ first.lbs →
        interpolate w key (first :: rest) = speedFor first key) ∧
    (∀ (pre : List ChartDataPoint) (lastS : ChartDataPoint) (key : String) (w : ℚ),
        Ascending (pre ++ [lastS]) → lastS.lbs ≤ w →
        interpolate w key (pre ++ [lastS]) = speedFor lastS key) := by
  constructor
  · intro first rest key w hA hw
    cases rest with
    | nil => exact interpolate_single first key w
    | cons b post =>
      have hfl : first.lbs ≤ (lastOf first (b :: post)).lbs := first_le_lastOf hA
      have hc : clampW (first :: b :: post) w = first.lbs := by
        simp only [clampW]
        rw [min_eq_right (le_trans hw hfl), max_eq_left hw]
      have hfb : first.lbs < b.lbs := (List.pairwise_cons.mp hA).1 b (by simp)
      have := interpolate_bracket [] first b post key w (by simpa using hA)
        (by simp [hc]) (by simp [hc]; exact le_of_lt hfb)
      simp only [List.nil_append] at this
      rw [this, hc, lerpVal_left]
  · intro pre lastS key w hA hw
    rcases List.eq_nil_or_concat pre with rfl | ⟨L, a, rfl⟩
    · simpa using interpolate_single lastS key w
    · have hshape : L.concat a ++ [lastS] = L ++ a :: lastS :: [] := by simp
      rw [hshape] at hA ⊢
      have halast : a.lbs < lastS.lbs := by
        have := (List.pairwise_append.mp hA).2.1
        exact (List.pairwise_cons.mp this).1 lastS (by simp)
      have hfirstle : ∀ (first : ChartDataPoint) (rest : List ChartDataPoint),
          first :: rest = L ++ a :: lastS :: [] → clampW (L ++ a :: lastS :: []) w = lastS.lbs := by
        intro first rest hfr
        have hlast : lastOf first rest = lastS := by
          apply @lastOf_of_cons_eq_concat first rest (L ++ [a]) lastS
          simpa using hfr
        have hAc : Ascending (first :: rest) := by rw [hfr]; exact hA
        have hle : first.lbs ≤ lastS.lbs := by
          have := first_le_lastOf hAc
          rwa [hlast] at this
        rw [← hfr]
        simp only [clampW, hlast]
        rw [min_eq_left hw, max_eq_right hle]
      have hc : clampW (L ++ a :: lastS :: []) w = lastS.lbs := by
        cases L with
        | nil => exact hfirstle a [lastS] (by simp)
        | cons y L' => exact hfirstle y (L' ++ a :: lastS :: []) (by simp)
      have := interpolate_bracket L a lastS [] key w hA
        (by rw [hc]; exact le_of_lt halast) (by rw [hc])
      rw [this, hc, lerpVal_right a lastS key (ne_of_lt halast)]

/-- Closed instance of C2 on the built-in M20J table below and above range. -/
theorem C2_witness :
    Ascending (mooneyP1 :: [mooneyP2, mooneyP3, mooneyP4]) ∧
    (1000 : ℚ) ≤ mooneyP1.lbs ∧
    interpolate 1000 "flaps33" (mooneyP1 :: [mooneyP2, mooneyP3, mooneyP4]) =
      speedFor mooneyP1 "flaps33" ∧
    Ascending ([mooneyP1, mooneyP2, mooneyP3] ++ [mooneyP4]) ∧
    mooneyP4.lbs ≤ (9999 : ℚ) ∧
    interpolate 9999 "flaps15" ([mooneyP1, mooneyP2, mooneyP3] ++ [mooneyP4]) =
      speedFor mooneyP4 "flaps15" := by
  have hA : Ascending (mooneyP1 :: [mooneyP2, mooneyP3, mooneyP4]) := by
    simp [Ascending, mooneyP1, mooneyP2, mooneyP3, mooneyP4]
    norm_num
  have h1 : (1000 : ℚ) ≤ mooneyP1.lbs := by simp [mooneyP1]; norm_num
  have hA' : Ascending ([mooneyP1, mooneyP2, mooneyP3] ++ [mooneyP4]) := by
    simpa using hA
  have h2 : mooneyP4.lbs ≤ (9999 : ℚ) := by simp [mooneyP4]; norm_num
  exact ⟨hA, h1, C2_interpolate_clamps.1 mooneyP1 [mooneyP2, mooneyP3, mooneyP4] "flaps33" 1000 hA h1,
    hA', h2, C2_interpolate_clamps.2 [mooneyP1, mooneyP2, mooneyP3] mooneyP4 "flaps15" 9999 hA' h2⟩

/-! ### Claim C9: monotonicity and no overshoot between two samples -/

theorem lerp_mono_incr (L U sA sB c1 c2 : ℚ) (hLU : L < U) (h1 : L ≤ c1) (hc : c1 ≤ c2)
    (h2 : c2 ≤ U) (hs : sA ≤ sB) :
    sA + (c1 - L) / (U - L) * (sB - sA) ≤ sA + (c2 - L) / (U - L) * (sB - sA) := by
  have hU : (0 : ℚ) < U - L := sub_pos.mpr hLU
  have ht : (c1 - L) / (U - L) ≤ (c2 - L) / (U - L) :=
    (div_le_div_iff_of_pos_right hU).mpr (by linarith)
  have := mul_le_mul_of_nonneg_right ht (sub_nonneg.mpr hs)
  linarith

theorem lerp_mono_decr (L U sA sB c1 c2 : ℚ) (hLU : L < U) (h1 : L ≤ c1) (hc : c1 ≤ c2)
    (h2 : c2 ≤ U) (hs : sB ≤ sA) :
    sA + (c2 - L) / (U - L) * (sB - sA) ≤ sA + (c1 - L) / (U - L) * (sB - sA) := by
  have hU : (0 : ℚ) < U - L := sub_pos.mpr hLU
  have ht : (c1 - L) / (U - L) ≤ (c2 - L) / (U - L) :=
    (div_le_div_iff_of_pos_right hU).mpr (by linarith)
  have := mul_le_mul_of_nonpos_right ht (sub_nonpos.mpr hs)
  linarith

theorem lerp_between (L U sA sB c : ℚ) (hLU : L < U) (h1 : L ≤ c) (h2 : c ≤ U) :
    min sA sB ≤ sA + (c - L) / (U - L) * (sB - sA) ∧
    sA + (c - L) / (U - L) * (sB - sA) ≤ max sA sB := by
  have hU : (0 : ℚ) < U - L := sub_pos.mpr hLU
  have ht0 : 0 ≤ (c - L) / (U - L) := div_nonneg (by linarith) (le_of_lt hU)
  have ht1 : (c - L) / (U - L) ≤ 1 := (div_le_one hU).mpr (by linarith)
  rcases le_total sA sB with hs | hs
  · rw [min_eq_left hs, max_eq_right hs]
    constructor
    · nlinarith [mul_nonneg ht0 (sub_nonneg.mpr hs)]
    · nlinarith [mul_le_mul_of_nonneg_right ht1 (sub_nonneg.mpr hs)]
  · rw [min_eq_right hs, max_eq_left hs]
    constructor
    · nlinarith [mul_le_mul_of_nonpos_right ht1 (sub_nonpos.mpr hs)]
    · nlinarith [mul_nonpos_of_nonneg_of_nonpos ht0 (sub_nonpos.mpr hs)]

/-- **C9.** Between the same two consecutive samples of an ascending table the
interpolator is monotone when the two sample speeds are monotone, and the
interpolated value never overshoots the two sample values. -/
theorem C9_interpolate_monotone (pre : List ChartDataPoint) (a b : ChartDataPoint)
    (post : List ChartDataPoint) (key : String) (w1 w2 : ℚ)
    (hA : Ascending (pre ++ a :: b :: post)) (hw : w1 ≤ w2)
    (h11 : a.lbs ≤ clampW (pre ++ a :: b :: post) w1)
    (h12 : clampW (pre ++ a :: b :: post) w1 ≤ b.lbs)
    (h21 : a.lbs ≤ clampW (pre ++ a :: b :: post) w2)
    (h22 : clampW (pre ++ a :: b :: post) w2 ≤ b.lbs) :
    ((speedFor a key ≤ speedFor b key →
        interpolate w1 key (pre ++ a :: b :: post) ≤ interpolate w2 key (pre ++ a :: b :: post)) ∧
     (speedFor b key ≤ speedFor a key →
        interpolate w2 key (pre ++ a :: b :: post) ≤ interpolate w1 key (pre ++ a :: b :: post)) ∧
     (min (speedFor a key) (speedFor b key) ≤ interpolate w1 key (pre ++ a :: b :: post) ∧
      interpolate w1 key (pre ++ a :: b :: post) ≤ max (speedFor a key) (speedFor b key)) ∧
     (min (speedFor a key) (speedFor b key) ≤ interpolate w2 key (pre ++ a :: b :: post) ∧
      interpolate w2 key (pre ++ a :: b :: post) ≤ max (speedFor a key) (speedFor b key))) := by
  have hab : a.lbs < b.lbs := by
    have h := (List.pairwise_append.mp hA).2.1
    exact (List.pairwise_cons.mp h).1 b (by simp)
  have hc : clampW (pre ++ a :: b :: post) w1 ≤ clampW (pre ++ a :: b :: post) w2 :=
    clampW_mono hw
  rw [interpolate_bracket pre a b post key w1 hA h11 h12,
    interpolate_bracket pre a b post key w2 hA h21 h22]
  simp only [lerpVal]
  exact ⟨fun hs => lerp_mono_incr _ _ _ _ _ _ hab h11 hc h22 hs,
    fun hs => lerp_mono_decr _ _ _ _ _ _ hab h11 hc h22 hs,
    lerp_between _ _ _ _ _ hab h11 h12,
    lerp_between _ _ _ _ _ hab h21 h22⟩

/-- Closed instance of C9 on the built-in M20J table between 2400 and 2600 lbs. -/
theorem C9_witness :
    Ascending ([mooneyP1] ++ mooneyP2 :: mooneyP3 :: [mooneyP4]) ∧
    (2450 : ℚ) ≤ 2550 ∧
    mooneyP2.lbs ≤ clampW ([mooneyP1] ++ mooneyP2 :: mooneyP3 :: [mooneyP4]) 2450 ∧
    clampW ([mooneyP1] ++ mooneyP2 :: mooneyP3 :: [mooneyP4]) 2450 ≤ mooneyP3.lbs ∧
    mooneyP2.lbs ≤ clampW ([mooneyP1] ++ mooneyP2 :: mooneyP3 :: [mooneyP4]) 2550 ∧
    clampW ([mooneyP1] ++ mooneyP2 :: mooneyP3 :: [mooneyP4]) 2550 ≤ mooneyP3.lbs ∧
    (speedFor mooneyP2 "clean" ≤ speedFor mooneyP3 "clean" →
      interpolate 2450 "clean" ([mooneyP1] ++ mooneyP2 :: mooneyP3 :: [mooneyP4]) ≤
        interpolate 2550 "clean" ([mooneyP1] ++ mooneyP2 :: mooneyP3 :: [mooneyP4])) := by
  have hA : Ascending ([mooneyP1] ++ mooneyP2 :: mooneyP3 :: [mooneyP4]) := by
    simp [Ascending, mooneyP1, mooneyP2, mooneyP3, mooneyP4]
    norm_num
  have hw : (2450 : ℚ) ≤ 2550 := by norm_num
  have h11 : mooneyP2.lbs ≤ clampW ([mooneyP1] ++ mooneyP2 :: mooneyP3 :: [mooneyP4]) 2450 := by
    simp [clampW, lastOf, mooneyP1, mooneyP2, mooneyP3, mooneyP4]; norm_num
  have h12 : clampW ([mooneyP1] ++ mooneyP2 :: mooneyP3 :: [mooneyP4]) 2450 ≤ mooneyP3.lbs := by
    simp [clampW, lastOf, mooneyP1, mooneyP2, mooneyP3, mooneyP4]; norm_num
  have h21 : mooneyP2.lbs ≤ clampW ([mooneyP1] ++ mooneyP2 :: mooneyP3 :: [mooneyP4]) 2550 := by
    simp [clampW, lastOf, mooneyP1, mooneyP2, mooneyP3, mooneyP4]; norm_num
  have h22 : clampW ([mooneyP1] ++ mooneyP2 :: mooneyP3 :: [mooneyP4]) 2550 ≤ mooneyP3.lbs := by
    simp [clampW, lastOf, mooneyP1, mooneyP2, mooneyP3, mooneyP4]; norm_num
  exact ⟨hA, hw, h11, h12, h21, h22,
    (C9_interpolate_monotone [mooneyP1] mooneyP2 mooneyP3 [mooneyP4] "clean" 2450 2550
      hA hw h11 h12 h21 h22).1⟩

/-! ## Derived performance quantities (useAircraftPerformance) -/

/-- `SpeedConfig` from types.ts. -/
structure SpeedConfig where
  key : String
  label : String
  subLabel : String
  color : Option String := none
deriving DecidableEq, Repr

/-- `WeightPreset` from types.ts (`icon` is one of three icon names). -/
structure WeightPreset where
  label : String
  val : ℚ
  icon : String
deriving DecidableEq, Repr

/-- `AircraftProfile` from types.ts. -/
structure AircraftProfile where
  id : String
  name : String
  shortName : String
  performanceData : List ChartDataPoint
  configs : List SpeedConfig
  presets : List WeightPreset
  dmmsFactor : ℚ
deriving DecidableEq, Repr

/-- `String.prototype.includes`: leftmost substring test on character lists. -/
def containsSub (needle : List Char) : List Char → Bool
  | [] => needle.isEmpty
  | c :: cs => needle.isPrefixOf (c :: cs) || containsSub needle cs

/-- The `stallSpeed` record: `result[cfg.key] = interpolate(weight, cfg.key, data)`
for each configuration of the profile. -/
def stallSpeedList (profile : AircraftProfile) (weight : ℚ) : List (String × ℚ) :=
  profile.configs.map (fun cfg => (cfg.key, interpolate weight cfg.key profile.performanceData))

/-- JavaScript `record[key] || 0` on an association-list record. -/
def speedsGet (l : List (String × ℚ)) (k : String) : ℚ :=
  (lookupS k l).getD 0

/-- The `approachSpeed` record: `result[cfg.key] = (sVal * 1.3) + gustFactor * 0.5`
with `sVal = stallSpeed[cfg.key] || 0`. -/
def approachSpeedList (profile : AircraftProfile) (weight gustFactor : ℚ) :
    List (String × ℚ) :=
  profile.configs.map (fun cfg =>
    (cfg.key, speedsGet (stallSpeedList profile weight) cfg.key * (13/10) + gustFactor * (1/2)))

/-- `profile.configs.find(c => c.key.includes('clean'))?.key || profile.configs[0].key`.
A key that contains `'clean'` is a nonempty string, hence truthy; the fallback
indexes `configs[0]` and the source therefore requires a nonempty
configuration list (`""` stands for the crash on an empty one). -/
def cleanKey (profile : AircraftProfile) : String :=
  match profile.configs.find? (fun c => containsSub "clean".data c.key.data) with
  | some c => c.key
  | none =>
    match profile.configs with
    | [] => ""
    | c :: _ => c.key

/-- `const cleanStall = stallSpeed[cleanKey] || 0`. -/
def cleanStallOf (profile : AircraftProfile) (weight : ℚ) : ℚ :=
  speedsGet (stallSpeedList profile weight) (cleanKey profile)

/-- `const dmms = Math.round(cleanStall * profile.dmmsFactor)`.
`round` on `ℚ` is `⌊x + 1/2⌋`, which agrees with JavaScript `Math.round`. -/
def dmmsOf (profile : AircraftProfile) (weight : ℚ) : ℤ :=
  round (cleanStallOf profile weight * profile.dmmsFactor)

/-- `const buffer = Math.round(dmms - cleanStall)`. -/
def bufferOf (profile : AircraftProfile) (weight : ℚ) : ℤ :=
  round ((dmmsOf profile weight : ℚ) - cleanStallOf profile weight)

/-- The built-in `MOONEY_M20J` profile from constants.ts (`dmmsFactor = 1.404`). -/
def MOONEY_M20J : AircraftProfile :=
  { id := "mooney-m20j-default-v3"
    name := "Mooney M20J (201)"
    shortName := "M20J"
    performanceData := mooneyData
    configs :=
      [ { key := "clean", label := "Flaps 0°", subLabel := "Gear Down" },
        { key := "flaps15", label := "Flaps 15°", subLabel := "Gear Down / Takeoff",
          color := some "blue" },
        { key := "flaps33", label := "Flaps 33°", subLabel := "Gear Down / Full" } ]
    presets :=
      [ { label := "Solo + Full Fuel", val := 1850, icon := "User" },
        { label := "Training (Dual)", val := 2100, icon := "Users" },
        { label := "Max Gross", val := 2740, icon := "Weight" } ]
    dmmsFactor := 351/250 }

/-! ### Claim C3: derived speeds -/

theorem lookupS_map_configs (configs : List SpeedConfig) (f : String → ℚ) (k : String)
    (hk : k ∈ configs.map SpeedConfig.key) :
    lookupS k (configs.map (fun c => (c.key, f c.key))) = some (f k) := by
  induction configs with
  | nil => simp at hk
  | cons c cs ih =>
    simp only [List.map_cons, lookupS]
    by_cases h : c.key = k
    · subst h; simp
    · rw [if_neg h]
      apply ih
      simp only [List.map_cons, List.mem_cons] at hk
      rcases hk with hk | hk
      · exact absurd hk.symm h
      · exact hk

theorem speedsGet_stall (profile : AircraftProfile) (w : ℚ) (k : String)
    (hk : k ∈ profile.configs.map SpeedConfig.key) :
    speedsGet (stallSpeedList profile w) k = interpolate w k profile.performanceData := by
  have h := lookupS_map_configs profile.configs
    (fun key => interpolate w key profile.performanceData) k hk
  simp only at h
  unfold speedsGet stallSpeedList
  rw [h]
  rfl

theorem speedsGet_approach (profile : AircraftProfile) (w g : ℚ) (k : String)
    (hk : k ∈ profile.configs.map SpeedConfig.key) :
    speedsGet (approachSpeedList profile w g) k =
      speedsGet (stallSpeedList profile w) k * (13/10) + g * (1/2) := by
  have h := lookupS_map_configs profile.configs
    (fun key => speedsGet (stallSpeedList profile w) key * (13/10) + g * (1/2)) k hk
  simp only at h
  unfold speedsGet approachSpeedList
  rw [h]
  rfl

theorem cleanKey_mem (profile : AircraftProfile) (h : profile.configs ≠ []) :
    cleanKey profile ∈ profile.configs.map SpeedConfig.key := by
  unfold cleanKey
  cases hf : profile.configs.find? (fun c => containsSub "clean".data c.key.data) with
  | some c => exact List.mem_map_of_mem _ (List.mem_of_find?_eq_some hf)
  | none =>
    cases hc : profile.configs with
    | nil => exact absurd hc h
    | cons c cs => simp

theorem mooney_cleanStall_2600 : cleanStallOf MOONEY_M20J 2600 = 123/2 := by
  simp [cleanStallOf, speedsGet, stallSpeedList, cleanKey, MOONEY_M20J, mooneyData, containsSub,
    lookupS, List.find?, interpolate, findBracket, clampW, lastOf, speedFor,
    mooneyP1, mooneyP2, mooneyP3, mooneyP4]
  norm_num

theorem mooney_dmms_2600 : dmmsOf MOONEY_M20J 2600 = 86 := by
  rw [dmmsOf, mooney_cleanStall_2600]
  show round ((123/2 : ℚ) * MOONEY_M20J.dmmsFactor) = 86
  rw [show MOONEY_M20J.dmmsFactor = 351/250 from rfl, round_eq]
  norm_num

/-- **C3, counterexample.**  On the built-in M20J profile at 2600 lbs the
clean stall speed is 61.5 kt, the maneuvering speed is `round(61.5·1.404) = 86`,
and the code's buffer is `Math.round(86 − 61.5) = 25`, which differs from the
exact, unrounded difference `86 − 61.5 = 24.5` asserted by the claim. -/
theorem C3_counterexample :
    ((bufferOf MOONEY_M20J 2600 : ℤ) : ℚ) ≠
      ((dmmsOf MOONEY_M20J 2600 : ℤ) : ℚ) - cleanStallOf MOONEY_M20J 2600 := by
  have hb : bufferOf MOONEY_M20J 2600 = 25 := by
    rw [bufferOf, mooney_dmms_2600, mooney_cleanStall_2600]
    show round ((86 : ℚ) - 123/2) = 25
    rw [round_eq]
    norm_num
  rw [hb, mooney_dmms_2600, mooney_cleanStall_2600]
  norm_num

/-- **C3, amended.**  For every profile with at least one configuration, every
weight and gust factor: each configuration's approach speed is
`s·1.3 + g·0.5` where `s` is the interpolated stall speed for that
configuration; the maneuvering speed is `round(s_clean · dmmsFactor)`; and the
buffer is the **rounded** difference `round(dmms − s_clean)` (the code rounds
the buffer; it is not the exact difference). -/
theorem C3_amended (profile : AircraftProfile) (w g : ℚ) (h : profile.configs ≠ []) :
    (∀ cfg ∈ profile.configs,
        speedsGet (approachSpeedList profile w g) cfg.key =
          interpolate w cfg.key profile.performanceData * (13/10) + g * (1/2)) ∧
    dmmsOf profile w =
      round (interpolate w (cleanKey profile) profile.performanceData * profile.dmmsFactor) ∧
    bufferOf profile w =
      round ((dmmsOf profile w : ℚ) -
        interpolate w (cleanKey profile) profile.performanceData) := by
  have hclean : cleanStallOf profile w =
      interpolate w (cleanKey profile) profile.performanceData :=
    speedsGet_stall profile w _ (cleanKey_mem profile h)
  refine ⟨?_, ?_, ?_⟩
  · intro cfg hcfg
    have hk : cfg.key ∈ profile.configs.map SpeedConfig.key := List.mem_map_of_mem _ hcfg
    rw [speedsGet_approach profile w g _ hk, speedsGet_stall profile w _ hk]
  · rw [dmmsOf, hclean]
  · rw [bufferOf, hclean]

/-- Closed instance of the amended C3 on the built-in M20J profile. -/
theorem C3_witness :
    MOONEY_M20J.configs ≠ [] ∧
    ((∀ cfg ∈ MOONEY_M20J.configs,
        speedsGet (approachSpeedList MOONEY_M20J 2500 10) cfg.key =
          interpolate 2500 cfg.key MOONEY_M20J.performanceData * (13/10) + 10 * (1/2)) ∧
     dmmsOf MOONEY_M20J 2500 =
       round (interpolate 2500 (cleanKey MOONEY_M20J) MOONEY_M20J.performanceData *
         MOONEY_M20J.dmmsFactor) ∧
     bufferOf MOONEY_M20J 2500 =
       round ((dmmsOf MOONEY_M20J 2500 : ℚ) -
         interpolate 2500 (cleanKey MOONEY_M20J) MOONEY_M20J.performanceData)) := by
  have h : MOONEY_M20J.configs ≠ [] := by simp [MOONEY_M20J]
  exact ⟨h, C3_amended MOONEY_M20J 2500 10 h⟩

/-! ## Weather service (weatherService.ts): gust extraction and TAF parsing -/

/-- JavaScript `[0-9]`: code points 48–57. -/
def isDigitC (c : Char) : Bool := 48 ≤ c.toNat && c.toNat ≤ 57

/-- JavaScript `\s` (the whitespace class used by `trim`, `\s+` and `parseInt`):
space, tab, line feed, vertical tab, form feed, carriage return, and the
Unicode space separators, by code point. -/
def isWsJS (c : Char) : Bool :=
  c.toNat = 32 || c.toNat = 9 || c.toNat = 10 || c.toNat = 11 || c.toNat = 12 ||
  c.toNat = 13 || c.toNat = 160 || c.toNat = 0x1680 ||
  (0x2000 ≤ c.toNat && c.toNat ≤ 0x200a) ||
  c.toNat = 0x2028 || c.toNat = 0x2029 || c.toNat = 0x202f || c.toNat = 0x205f ||
  c.toNat = 0x3000 || c.toNat = 0xfeff

/-- Value of a list of decimal digits. -/
def digitsToNat (ds : List Char) : ℕ :=
  ds.foldl (fun a c => 10 * a + (c.toNat - 48)) 0

/-- Read exactly `n` decimal digits, returning them and the rest. -/
def takeDigits : ℕ → List Char → Option (List Char × List Char)
  | 0, cs => some ([], cs)
  | _ + 1, [] => none
  | n + 1, c :: cs =>
    if isDigitC c then (takeDigits n cs).map (fun p => (c :: p.1, p.2)) else none

/-- Tail of the wind-group regex after the third capture group: literal `KT`. -/
def gustKT (ds : List Char) : List Char → Option ℕ
  | 'K' :: 'T' :: _ => some (digitsToNat ds)
  | _ => none

/-- Third capture group `([0-9]{2,3})` (greedy, with backtracking) then `KT`. -/
def gustAfterG (cs : List Char) : Option ℕ :=
  (do
    let (ds, r) ← takeDigits 3 cs
    gustKT ds r) <|>
  (do
    let (ds, r) ← takeDigits 2 cs
    gustKT ds r)

/-- Second capture group `([0-9]{2,3})` (greedy, with backtracking) then `G`. -/
def gustSpeedPart (cs : List Char) : Option ℕ :=
  (do
    let (_, r) ← takeDigits 3 cs
    match r with
    | 'G' :: r' => gustAfterG r'
    | _ => none) <|>
  (do
    let (_, r) ← takeDigits 2 cs
    match r with
    | 'G' :: r' => gustAfterG r'
    | _ => none)

/-- One attempt of `([0-9]{3}|VRB)([0-9]{2,3})G([0-9]{2,3})KT` at this position
(the alternation tries the digits branch first, as the regex engine does). -/
def gustAt (cs : List Char) : Option ℕ :=
  (do
    let (_, r) ← takeDigits 3 cs
    gustSpeedPart r) <|>
  (match cs with
   | 'V' :: 'R' :: 'B' :: r => gustSpeedPart r
   | _ => none)

/-- Leftmost-match search of the wind-group pattern. -/
def searchGust : List Char → Option ℕ
  | [] => none
  | c :: cs => gustAt (c :: cs) <|> searchGust cs

/-- `extractGust(text)`: `text.match(/([0-9]{3}|VRB)([0-9]{2,3})G([0-9]{2,3})KT/)`,
returning the third captured group as a base-10 integer, else `null`. -/
def extractGust (s : String) : Option ℕ := searchGust s.data

/-! ### HTML cleanup: `replace(/<[^>]*>/g, ' ').replace(/\s+/g, ' ')` -/

/-- Drop characters up to and including the first `'>'`; `none` if there is none
(an unterminated `<...` does not match the tag regex). -/
def dropThroughGt : List Char → Option (List Char)
  | [] => none
  | '>' :: cs => some cs
  | _ :: cs => dropThroughGt cs

/-- Fuel-indexed tag stripper; each step consumes at least one character, so
fuel `cs.length` realizes `replace(/<[^>]*>/g, ' ')` exactly. -/
def stripTagsF : ℕ → List Char → List Char
  | 0, cs => cs
  | _, [] => []
  | fuel + 1, '<' :: cs =>
    (match dropThroughGt cs with
     | some rest => ' ' :: stripTagsF fuel rest
     | none => '<' :: stripTagsF fuel cs)
  | fuel + 1, c :: cs => c :: stripTagsF fuel cs

def stripTags (cs : List Char) : List Char := stripTagsF cs.length cs

/-- `replace(/\s+/g, ' ')`: each maximal whitespace run becomes one space. -/
def collapseWs : List Char → List Char
  | [] => []
  | [c] => [if isWsJS c then ' ' else c]
  | a :: b :: cs =>
    if isWsJS a && isWsJS b then collapseWs (b :: cs)
    else (if isWsJS a then ' ' else a) :: collapseWs (b :: cs)

/-- `split('\n')`. -/
def splitNl : List Char → List (List Char)
  | [] => [[]]
  | c :: cs =>
    if c = '\n' then [] :: splitNl cs
    else
      match splitNl cs with
      | [] => [[c]]
      | l :: ls => (c :: l) :: ls

/-- `String.prototype.trim`. -/
def trimJS (l : List Char) : List Char :=
  ((l.dropWhile isWsJS).reverse.dropWhile isWsJS).reverse

/-! ### Fixed-shape group markers as token patterns -/

inductive Tok where
  | lit : Char → Tok
  | dig : Tok
deriving DecidableEq, Repr

def charOk : Tok → Char → Bool
  | .lit a, c => c = a
  | .dig, c => isDigitC c

/-- Does the pattern match a prefix of the text? -/
def matchToks : List Tok → List Char → Bool
  | [], _ => true
  | _ :: _, [] => false
  | t :: ts, c :: cs => charOk t c && matchToks ts cs

/-- `FM[0-9]{6}`. -/
def fmToks : List Tok :=
  [.lit 'F', .lit 'M', .dig, .dig, .dig, .dig, .dig, .dig]
/-- `BECMG [0-9]{4}\/[0-9]{4}`. -/
def becmgToks : List Tok :=
  [.lit 'B', .lit 'E', .lit 'C', .lit 'M', .lit 'G', .lit ' ',
   .dig, .dig, .dig, .dig, .lit '/', .dig, .dig, .dig, .dig]
/-- `TEMPO [0-9]{4}\/[0-9]{4}`. -/
def tempoToks : List Tok :=
  [.lit 'T', .lit 'E', .lit 'M', .lit 'P', .lit 'O', .lit ' ',
   .dig, .dig, .dig, .dig, .lit '/', .dig, .dig, .dig, .dig]
/-- `PROB[0-9]{2} [0-9]{4}\/[0-9]{4}`. -/
def probToks : List Tok :=
  [.lit 'P', .lit 'R', .lit 'O', .lit 'B', .dig, .dig, .lit ' ',
   .dig, .dig, .dig, .dig, .lit '/', .dig, .dig, .dig, .dig]

/-- Global `replace(/(pat)/g, '\n$1')`: scan left to right, insert `'\n'` before
each match and resume after it.  The first argument counts characters of the
current match still to be copied verbatim (regex matches do not overlap). -/
def ibGo (t : List Tok) : ℕ → List Char → List Char
  | _, [] => []
  | f + 1, c :: cs => c :: ibGo t f cs
  | 0, c :: cs =>
    if matchToks t (c :: cs) then '\n' :: c :: ibGo t (t.length - 1) cs
    else c :: ibGo t 0 cs

def insertBreaks (t : List Tok) (cs : List Char) : List Char := ibGo t 0 cs

/-! ### Locating the TAF block -/

/-- `indexOf(needle)` on character lists (leftmost occurrence). -/
def findIdx (needle : List Char) : List Char → Option ℕ
  | [] => if needle.isEmpty then some 0 else none
  | c :: cs =>
    if needle.isPrefixOf (c :: cs) then some 0
    else (findIdx needle cs).map (· + 1)

/-- `indexOf(needle, start)`. -/
def findFrom (needle hay : List Char) (start : ℕ) : Option ℕ :=
  (findIdx needle (hay.drop start)).map (· + start)

def stopMarkersL : List (List Char) :=
  ["METAR".data, "OBSERVATION".data, "Copyright".data, "Key to Decoding".data]

/-- The stop-marker fold: `endIndex` starts at the block length and each marker
found at index ≥ 10 lowers it. -/
def stopIndex (block : List Char) : ℕ :=
  stopMarkersL.foldl
    (fun e m =>
      match findFrom m block 10 with
      | some i => if i < e then i else e
      | none => e)
    block.length

/-- Leftmost match of `(FM[0-9]{6}|BECMG [0-9]{4}\/[0-9]{4})`. -/
def findMarkerIdx : List Char → Option ℕ
  | [] => none
  | c :: cs =>
    if matchToks fmToks (c :: cs) || matchToks becmgToks (c :: cs) then some 0
    else (findMarkerIdx cs).map (· + 1)

/-- Steps 2 of `parseTaf`: `"TAF: " + code`, then `"TAF " + code`, then the
first change-group marker. -/
def tafStartIdx (cleanText code : List Char) : Option ℕ :=
  match findIdx ("TAF: ".data ++ code) cleanText with
  | some i => some i
  | none =>
    match findIdx ("TAF ".data ++ code) cleanText with
    | some i => some i
    | none => findMarkerIdx cleanText

/-! ### Entries -/

inductive TafType where
  | BASE | FM | TEMPO | BECMG | HEADER
deriving DecidableEq, Repr

/-- A JavaScript number that may be `NaN` (what `parseInt` returns on failure). -/
inductive JsNum where
  | nan : JsNum
  | int : ℤ → JsNum
deriving DecidableEq, Repr

/-- `TafEntry` from types.ts; `day`/`hour` are `number | null` where the number
may itself be `NaN`, hence `Option JsNum`. -/
structure TafEntry where
  raw : List Char
  gust : Option ℕ
  type : TafType
  day : Option JsNum
  hour : Option JsNum
deriving DecidableEq, Repr

/-- `substring(a, b)` (for `a ≤ b`, as used in the source). -/
def substringJS (l : List Char) (a b : ℕ) : List Char := (l.drop a).take (b - a)

/-- JavaScript `parseInt(s, 10)`: skip leading whitespace, an optional sign,
then the leading run of digits; `NaN` when that run is empty. -/
def parseIntJS (cs : List Char) : JsNum :=
  let s := cs.dropWhile isWsJS
  let neg : Bool := s.head? = some '-'
  let body := if s.head? = some '-' ∨ s.head? = some '+' then s.tail else s
  match body.takeWhile isDigitC with
  | [] => JsNum.nan
  | ds => JsNum.int (if neg then -(digitsToNat ds : ℤ) else (digitsToNat ds : ℤ))

/-- The per-line classification (step 5 of `parseTaf`). -/
def classify (idx : ℕ) (line : List Char) : TafEntry :=
  if "FM".data.isPrefixOf line then
    { raw := line, gust := searchGust line, type := .FM,
      day := some (parseIntJS (substringJS line 2 4)),
      hour := some (parseIntJS (substringJS line 4 6)) }
  else if "TEMPO".data.isPrefixOf line then
    { raw := line, gust := searchGust line, type := .TEMPO,
      day := some (parseIntJS (substringJS line 6 8)),
      hour := some (parseIntJS (substringJS line 8 10)) }
  else if "BECMG".data.isPrefixOf line then
    { raw := line, gust := searchGust line, type := .BECMG,
      day := some (parseIntJS (substringJS line 6 8)),
      hour := some (parseIntJS (substringJS line 8 10)) }
  else if "TAF".data.isPrefixOf line ∨ idx = 0 then
    { raw := line, gust := searchGust line, type := .HEADER, day := none, hour := none }
  else
    { raw := line, gust := searchGust line, type := .BASE, day := none, hour := none }

/-- Indexed enumeration (the `(element, index)` pairs of a `map` callback). -/
def enumIdx {α : Type} : ℕ → List α → List (ℕ × α)
  | _, [] => []
  | n, l :: ls => (n, l) :: enumIdx (n + 1) ls

/-- Steps 1–4 of `parseTaf`: the trimmed, length-filtered lines of the
located TAF block (empty when no start marker is found). -/
def tafLines (rawHtml code : List Char) : List (List Char) :=
  let cleanText := collapseWs (stripTags rawHtml)
  match tafStartIdx cleanText code with
  | none => []
  | some tafStart =>
    let block0 := cleanText.drop tafStart
    let tafBlock := block0.take (stopIndex block0)
    let formatted :=
      insertBreaks probToks (insertBreaks tempoToks
        (insertBreaks becmgToks (insertBreaks fmToks tafBlock)))
    ((splitNl formatted).map trimJS).filter (fun l => 5 < l.length)

/-- `parseTaf(rawHtml, code)` over character lists: step 5 applied to the
lines (an empty line list yields the empty entry list of step 2's bail-out). -/
def parseTafCore (rawHtml code : List Char) : List TafEntry :=
  (enumIdx 0 (tafLines rawHtml code)).map (fun p => classify p.1 p.2)

/-- `parseTaf` on strings. -/
def parseTaf (rawHtml code : String) : List TafEntry :=
  parseTafCore rawHtml.data code.data

/-! ### Claim C4: gust extraction -/

/-- **C4.** `extractGust` returns the third captured group of
`([0-9]{3}|VRB)([0-9]{2,3})G([0-9]{2,3})KT` parsed as a base-10 integer when
the pattern matches, and no value otherwise: the spec's three examples, a
leading-zero gust (`"067"` parses to 67) and a matched zero gust (returned as
`0`, never as no-value). -/
theorem C4_extractGust_examples :
    extractGust "KMIE 121654Z 18015G25KT 10SM" = some 25 ∧
    extractGust "KMIE 121654Z 18015KT 10SM" = none ∧
    extractGust "KMIE 121654Z VRB08G15KT 10SM" = some 15 ∧
    extractGust "KMIE 121654Z 18015G067KT 10SM" = some 67 ∧
    extractGust "KMIE 121654Z 18015G00KT 10SM" = some 0 := by
  refine ⟨?_, ?_, ?_, ?_, ?_⟩ <;> decide

/-! ### Claim C5: the worked parse example -/

/-- **C5.** On the spec's example HTML and station `KMIE`, `parseTaf` produces
exactly a HEADER entry holding the initial group, an FM entry with day 12,
hour 18 and gust 22, and a BECMG entry with day 13, hour 0 and no gust; the
text after the `METAR` stop marker appears in no entry. -/
theorem C5_parseTaf_example :
    parseTaf "<b>TAF: KMIE</b> 121130Z 1212/1312 18012KT FM121800 20015G22KT BECMG 1300/1302 22010KT METAR ..." "KMIE" =
      [ { raw := "TAF: KMIE 121130Z 1212/1312 18012KT".data, gust := none,
          type := TafType.HEADER, day := none, hour := none },
        { raw := "FM121800 20015G22KT".data, gust := some 22,
          type := TafType.FM, day := some (JsNum.int 12), hour := some (JsNum.int 18) },
        { raw := "BECMG 1300/1302 22010KT".data, gust := none,
          type := TafType.BECMG, day := some (JsNum.int 13), hour := some (JsNum.int 0) } ] := by
  decide

/-! ### Claim C6: no start marker means an empty result -/

theorem findIdx_eq_none {needle hay : List Char}
    (h : ∀ i ≤ hay.length, needle.isPrefixOf (hay.drop i) = false) :
    findIdx needle hay = none := by
  induction hay with
  | nil =>
    cases needle with
    | nil => simpa using h 0 (by simp)
    | cons c cs => simp [findIdx]
  | cons c cs ih =>
    have h0 := h 0 (by simp)
    simp only [List.drop_zero] at h0
    simp only [findIdx, h0, Bool.false_eq_true, if_false]
    rw [ih (fun i hi => by simpa using h (i + 1) (by simpa using hi))]
    rfl

theorem findMarkerIdx_eq_none {hay : List Char}
    (h : ∀ i ≤ hay.length, matchToks fmToks (hay.drop i) = false ∧
      matchToks becmgToks (hay.drop i) = false) :
    findMarkerIdx hay = none := by
  induction hay with
  | nil => rfl
  | cons c cs ih =>
    have h0 := h 0 (by simp)
    simp only [List.drop_zero] at h0
    simp only [findMarkerIdx, h0.1, h0.2, Bool.or_self, Bool.false_eq_true, if_false]
    rw [ih (fun i hi => by simpa using h (i + 1) (by simpa using hi))]
    rfl

/-- **C6.** If the tag-stripped, whitespace-collapsed text contains no
occurrence of `"TAF: " + code`, none of `"TAF " + code`, and no match of the
change-group pattern `FM[0-9]{6}` or `BECMG ####/####`, then `parseTaf`
returns the empty sequence (a normal outcome, not an error). -/
theorem C6_no_marker_empty (html code : String)
    (h1 : ∀ i ≤ (collapseWs (stripTags html.data)).length,
        ("TAF: ".data ++ code.data).isPrefixOf
          ((collapseWs (stripTags html.data)).drop i) = false)
    (h2 : ∀ i ≤ (collapseWs (stripTags html.data)).length,
        ("TAF ".data ++ code.data).isPrefixOf
          ((collapseWs (stripTags html.data)).drop i) = false)
    (h3 : ∀ i ≤ (collapseWs (stripTags html.data)).length,
        matchToks fmToks ((collapseWs (stripTags html.data)).drop i) = false ∧
        matchToks becmgToks ((collapseWs (stripTags html.data)).drop i) = false) :
    parseTaf html code = [] := by
  have hnone : tafStartIdx (collapseWs (stripTags html.data)) code.data = none := by
    unfold tafStartIdx
    rw [findIdx_eq_none h1, findIdx_eq_none h2, findMarkerIdx_eq_none h3]
  simp only [parseTaf, parseTafCore, tafLines, hnone]
  rfl

/-- Closed instance of C6: HTML with no TAF content at all. -/
theorem C6_witness :
    (∀ i ≤ (collapseWs (stripTags "<p>hello world</p>".data)).length,
        ("TAF: ".data ++ "KMIE".data).isPrefixOf
          ((collapseWs (stripTags "<p>hello world</p>".data)).drop i) = false) ∧
    parseTaf "<p>hello world</p>" "KMIE" = [] := by
  refine ⟨by decide, C6_no_marker_empty "<p>hello world</p>" "KMIE" (by decide) (by decide) (by decide)⟩

/-! ## Active-period selector (WeatherSection.tsx, `getActiveTafIndex`)

The JavaScript `Date` calendar is abstracted by a parameter
`D : year → month → day → hour → adj → instant`: `D y m d h adj` stands for the
timestamp of `Date.UTC(y, m, d, h)` after its UTC month has been shifted by
`adj ∈ {-1, 0, 1}` (the ±15-day rollover correction).  Instants are integers
ordered as timestamps; `new Date(0)` is the instant `0`, and an invalid date
(from a `NaN` component) is `none`, which compares false against anything. -/

/-- `entryDate <= now` for a possibly invalid date. -/
def dateLe : Option ℤ → ℤ → Bool
  | some t, n => t ≤ n
  | none, _ => false

/-- `getEntryDate` from WeatherSection.tsx: `null` day or hour gives
`new Date(0)`; otherwise `Date.UTC(year, month, day, hour)` with the rollover
adjustment; a `NaN` component gives an invalid date. -/
def getEntryDate (D : ℤ → ℤ → ℤ → ℤ → ℤ → ℤ) (year month currentDay : ℤ)
    (e : TafEntry) : Option ℤ :=
  match e.day, e.hour with
  | none, _ => some 0
  | some _, none => some 0
  | some JsNum.nan, some _ => none
  | some (JsNum.int _), some JsNum.nan => none
  | some (JsNum.int d), some (JsNum.int h) =>
    let adj : ℤ :=
      if d < currentDay ∧ currentDay - d > 15 then 1
      else if currentDay < d ∧ d - currentDay > 15 then -1
      else 0
    some (D year month d h adj)

/-- The body of the `forEach` over `tafData` (with `acc` the mutable
`activeIndex`). -/
def activeStep (D : ℤ → ℤ → ℤ → ℤ → ℤ → ℤ) (year month currentDay now : ℤ)
    (acc : ℤ) (p : ℕ × TafEntry) : ℤ :=
  if p.2.type = TafType.HEADER ∧ p.1 ≠ 0 then acc
  else if p.2.type = TafType.FM ∨ p.2.type = TafType.BASE ∨ p.2.type = TafType.HEADER then
    match getEntryDate D year month currentDay p.2 with
    | some t => if t ≤ now then (p.1 : ℤ) else acc
    | none => acc
  else acc

/-- `getActiveTafIndex` from WeatherSection.tsx. -/
def getActiveTafIndex (D : ℤ → ℤ → ℤ → ℤ → ℤ → ℤ) (year month currentDay now : ℤ)
    (tafData : List TafEntry) : ℤ :=
  if tafData.isEmpty then -1
  else (enumIdx 0 tafData).foldl (activeStep D year month currentDay now) (-1)

/-- An indexed entry that causes the fold to overwrite `activeIndex`: a
candidate (FM or BASE anywhere, HEADER only at index 0) whose start date is
valid and at most `now`. -/
def isActiveCand (D : ℤ → ℤ → ℤ → ℤ → ℤ → ℤ) (year month currentDay now : ℤ)
    (p : ℕ × TafEntry) : Prop :=
  ¬(p.2.type = TafType.HEADER ∧ p.1 ≠ 0) ∧
  (p.2.type = TafType.FM ∨ p.2.type = TafType.BASE ∨ p.2.type = TafType.HEADER) ∧
  dateLe (getEntryDate D year month currentDay p.2) now = true

instance (D : ℤ → ℤ → ℤ → ℤ → ℤ → ℤ) (year month currentDay now : ℤ)
    (p : ℕ × TafEntry) : Decidable (isActiveCand D year month currentDay now p) := by
  unfold isActiveCand
  infer_instance

theorem activeStep_eq (D : ℤ → ℤ → ℤ → ℤ → ℤ → ℤ) (year month currentDay now : ℤ)
    (acc : ℤ) (p : ℕ × TafEntry) :
    activeStep D year month currentDay now acc p =
      if isActiveCand D year month currentDay now p then (p.1 : ℤ) else acc := by
  by_cases hcand : isActiveCand D year month currentDay now p
  · rw [if_pos hcand]
    obtain ⟨h1, h2, h3⟩ := hcand
    unfold activeStep
    rw [if_neg h1, if_pos h2]
    cases hd : getEntryDate D year month currentDay p.2 with
    | none => rw [hd] at h3; simp [dateLe] at h3
    | some t =>
      rw [hd] at h3
      simp only [dateLe, decide_eq_true_eq] at h3
      simp [h3]
  · rw [if_neg hcand]
    unfold activeStep
    by_cases h1 : p.2.type = TafType.HEADER ∧ p.1 ≠ 0
    · rw [if_pos h1]
    · rw [if_neg h1]
      by_cases h2 : p.2.type = TafType.FM ∨ p.2.type = TafType.BASE ∨ p.2.type = TafType.HEADER
      · rw [if_pos h2]
        cases hd : getEntryDate D year month currentDay p.2 with
        | none => rfl
        | some t =>
          by_cases h3 : t ≤ now
          · exact absurd ⟨h1, h2, by simp [dateLe, hd, h3]⟩ hcand
          · simp [h3]
      · rw [if_neg h2]

theorem foldl_activeStep_none (D : ℤ → ℤ → ℤ → ℤ → ℤ → ℤ)
    (year month currentDay now : ℤ) :
    ∀ (l : List (ℕ × TafEntry)) (acc : ℤ),
      (∀ p ∈ l, ¬ isActiveCand D year month currentDay now p) →
      l.foldl (activeStep D year month currentDay now) acc = acc := by
  intro l
  induction l with
  | nil => intro acc _; rfl
  | cons a l' ih =>
    intro acc h
    rw [List.foldl_cons, activeStep_eq, if_neg (h a (by simp))]
    exact ih acc (fun p hp => h p (by simp [hp]))

theorem foldl_activeStep_last (D : ℤ → ℤ → ℤ → ℤ → ℤ → ℤ)
    (year month currentDay now : ℤ) :
    ∀ (l1 : List (ℕ × TafEntry)) (q : ℕ × TafEntry) (l2 : List (ℕ × TafEntry)) (acc : ℤ),
      isActiveCand D year month currentDay now q →
      (∀ p ∈ l2, ¬ isActiveCand D year month currentDay now p) →
      (l1 ++ q :: l2).foldl (activeStep D year month currentDay now) acc = (q.1 : ℤ) := by
  intro l1
  induction l1 with
  | nil =>
    intro q l2 acc hq hl2
    rw [List.nil_append, List.foldl_cons, activeStep_eq, if_pos hq]
    exact foldl_activeStep_none D year month currentDay now l2 _ hl2
  | cons a l1' ih =>
    intro q l2 acc hq hl2
    rw [List.cons_append, List.foldl_cons]
    exact ih q l2 _ hq hl2

theorem exists_last_sat {α : Type} (P : α → Prop) [DecidablePred P] :
    ∀ l : List α, (∃ p ∈ l, P p) →
      ∃ l1 q l2, l = l1 ++ q :: l2 ∧ P q ∧ ∀ p ∈ l2, ¬ P p := by
  intro l
  induction l with
  | nil => rintro ⟨p, hp, _⟩; simp at hp
  | cons a l' ih =>
    intro hex
    by_cases h' : ∃ p ∈ l', P p
    · obtain ⟨l1, q, l2, rfl, hq, hl2⟩ := ih h'
      exact ⟨a :: l1, q, l2, rfl, hq, hl2⟩
    · have ha : P a := by
        rcases hex with ⟨p, hp, hP⟩
        rcases List.mem_cons.mp hp with rfl | hp'
        · exact hP
        · exact absurd ⟨p, hp', hP⟩ h'
      exact ⟨[], a, l', rfl, ha, fun p hp hP => h' ⟨p, hp, hP⟩⟩

/-- **C7, amended.**  For every calendar abstraction, clock and entry sequence:
candidates are FM and BASE entries anywhere and HEADER only at index 0;
entries with null day/hour get epoch (`Date(0)`) as start.  Among candidates
whose start is at most `now`, the one occurring **last in sequence order** is
selected (not the one with the latest start time); if there is none, the
result is `-1` (no entry active). -/
theorem C7_amended (D : ℤ → ℤ → ℤ → ℤ → ℤ → ℤ) (year month currentDay now : ℤ)
    (tafData : List TafEntry) :
    (getActiveTafIndex D year month currentDay now tafData = -1 ∧
       ∀ p ∈ enumIdx 0 tafData, ¬ isActiveCand D year month currentDay now p) ∨
    (∃ l1 q l2, enumIdx 0 tafData = l1 ++ q :: l2 ∧
       isActiveCand D year month currentDay now q ∧
       getActiveTafIndex D year month currentDay now tafData = (q.1 : ℤ) ∧
       ∀ p ∈ l2, ¬ isActiveCand D year month currentDay now p) := by
  by_cases hex : ∃ p ∈ enumIdx 0 tafData, isActiveCand D year month currentDay now p
  · right
    obtain ⟨l1, q, l2, hsplit, hq, hl2⟩ :=
      exists_last_sat (isActiveCand D year month currentDay now) _ hex
    refine ⟨l1, q, l2, hsplit, hq, ?_, hl2⟩
    have hne : tafData ≠ [] := by
      intro h
      subst h
      simp [enumIdx] at hsplit
    unfold getActiveTafIndex
    rw [if_neg (by simpa using hne), hsplit]
    exact foldl_activeStep_last D year month currentDay now l1 q l2 (-1) hq hl2
  · left
    push_neg at hex
    refine ⟨?_, hex⟩
    unfold getActiveTafIndex
    by_cases hempty : tafData.isEmpty
    · rw [if_pos hempty]
    · rw [if_neg hempty]
      exact foldl_activeStep_none D year month currentDay now _ _ hex

/-- A concrete calendar instantiation for the counterexample: the instant of
day `d`, hour `h` is `d·24 + h` (monotone in the start time, no rollover). -/
def dayHourInstant : ℤ → ℤ → ℤ → ℤ → ℤ → ℤ := fun _ _ d h _ => d * 24 + h

def tafE0 : TafEntry := ⟨[], none, TafType.FM, some (JsNum.int 20), some (JsNum.int 0)⟩
def tafE1 : TafEntry := ⟨[], none, TafType.FM, some (JsNum.int 19), some (JsNum.int 0)⟩

/-- **C7, counterexample.**  With `now = 480` (day 20, hour 0) and two FM
entries starting day 20 and day 19, both start times are valid and at most
`now`, and entry 0 has the strictly later start; yet `getActiveTafIndex`
returns index 1 — the last candidate in sequence order, not the one with the
latest start time as the claim states. -/
theorem C7_counterexample :
    getActiveTafIndex dayHourInstant 2026 9 20 480 [tafE0, tafE1] = 1 ∧
    getEntryDate dayHourInstant 2026 9 20 tafE0 = some 480 ∧
    getEntryDate dayHourInstant 2026 9 20 tafE1 = some 456 ∧
    dateLe (getEntryDate dayHourInstant 2026 9 20 tafE0) 480 = true ∧
    dateLe (getEntryDate dayHourInstant 2026 9 20 tafE1) 480 = true ∧
    (456 : ℤ) < 480 := by
  refine ⟨?_, ?_, ?_, ?_, ?_, ?_⟩ <;> decide

/-! ### Generic facts about token-pattern matching -/

theorem digit_not_ws {c : Char} (h : isDigitC c = true) : isWsJS c = false := by
  simp only [isDigitC, Bool.and_eq_true, decide_eq_true_eq] at h
  simp only [isWsJS, Bool.or_eq_false_iff, Bool.and_eq_false_iff, decide_eq_false_iff_not]
  omega

theorem isDigitC_ne {c : Char} (x : Char) (hc : isDigitC c = true)
    (hx : x.toNat < 48 ∨ 57 < x.toNat) : ¬(c = x) := by
  intro h
  subst h
  simp only [isDigitC, Bool.and_eq_true, decide_eq_true_eq] at hc
  omega

theorem matchToks_length : ∀ (t : List Tok) (l : List Char),
    matchToks t l = true → t.length ≤ l.length := by
  intro t
  induction t with
  | nil => intro l _; simp
  | cons tok ts ih =>
    intro l h
    cases l with
    | nil => simp [matchToks] at h
    | cons c cs =>
      simp only [matchToks, Bool.and_eq_true] at h
      simpa using ih cs h.2

theorem matchToks_append_right : ∀ (t : List Tok) (l1 l2 : List Char),
    matchToks t l1 = true → matchToks t (l1 ++ l2) = true := by
  intro t
  induction t with
  | nil => intro l1 l2 _; rfl
  | cons tok ts ih =>
    intro l1 l2 h
    cases l1 with
    | nil => simp [matchToks] at h
    | cons c cs =>
      simp only [matchToks, Bool.and_eq_true] at h
      simpa [matchToks, h.1] using ih cs l2 h.2

theorem matchToks_append_left : ∀ (t : List Tok) (l1 l2 : List Char),
    matchToks t (l1 ++ l2) = true → t.length ≤ l1.length → matchToks t l1 = true := by
  intro t
  induction t with
  | nil => intro l1 l2 _ _; rfl
  | cons tok ts ih =>
    intro l1 l2 h hl
    cases l1 with
    | nil => simp at hl
    | cons c cs =>
      simp only [List.cons_append, matchToks, Bool.and_eq_true] at h
      simp only [matchToks, Bool.and_eq_true, h.1, true_and]
      exact ih cs l2 h.2 (by simpa using hl)

theorem matchToks_take {t : List Tok} {l : List Char} {n : ℕ}
    (h : matchToks t l = true) (hn : t.length ≤ n) : matchToks t (l.take n) = true := by
  have hlen := matchToks_length t l h
  apply matchToks_append_left t (l.take n) (l.drop n)
  · rwa [List.take_append_drop]
  · simp only [List.length_take]
    omega

theorem matchToks_of_take {t : List Tok} {l : List Char} {n : ℕ}
    (h : matchToks t (l.take n) = true) : matchToks t l = true := by
  have := matchToks_append_right t (l.take n) (l.drop n) h
  rwa [List.take_append_drop] at this

theorem matchToks_take_append {t : List Tok} {l : List Char} (r : List Char)
    (h : matchToks t l = true) : matchToks t (l.take t.length ++ r) = true :=
  matchToks_append_right t _ r (matchToks_take h le_rfl)

theorem nl_not_in_match : ∀ (t : List Tok) (l : List Char),
    matchToks t l = true → (∀ tok ∈ t, charOk tok '\n' = false) →
    '\n' ∉ l.take t.length := by
  intro t
  induction t with
  | nil => intro l _ _; simp
  | cons tok ts ih =>
    intro l h hnl
    cases l with
    | nil => simp [matchToks] at h
    | cons c cs =>
      simp only [matchToks, Bool.and_eq_true] at h
      simp only [List.length_cons, List.take_succ_cons, List.mem_cons, not_or]
      constructor
      · intro hc
        subst hc
        exact absurd h.1 (by simp [hnl tok (by simp)])
      · exact ih cs h.2 (fun tok' ht' => hnl tok' (by simp [ht']))

/-! ### Facts about the break-insertion pass -/

theorem ibGo_skip (t : List Tok) : ∀ (k : ℕ) (cs : List Char),
    ibGo t k cs = cs.take k ++ ibGo t 0 (cs.drop k) := by
  intro k
  induction k with
  | zero => intro cs; simp
  | succ k ih =>
    intro cs
    cases cs with
    | nil => simp [ibGo]
    | cons c cs' => simp [ibGo, ih cs']

/-- If the pattern matches at none of the first `n` positions, the pass copies
the first `n` characters verbatim. -/
theorem ibGo_copy (t : List Tok) : ∀ (n : ℕ) (cs : List Char), n ≤ cs.length →
    (∀ i < n, matchToks t (cs.drop i) = false) →
    ibGo t 0 cs = cs.take n ++ ibGo t 0 (cs.drop n) := by
  intro n
  induction n with
  | zero => intro cs _ _; simp
  | succ n ih =>
    intro cs hlen h
    cases cs with
    | nil => simp at hlen
    | cons c cs' =>
      have h0 : matchToks t (c :: cs') = false := by simpa using h 0 (by omega)
      simp only [ibGo, h0, Bool.false_eq_true, if_false, List.take_succ_cons,
        List.drop_succ_cons, List.cons_append, List.cons.injEq, true_and]
      exact ih cs' (by simpa using hlen) (fun i hi => by simpa using h (i + 1) (by omega))

/-- If the pattern matches nowhere, the pass is the identity. -/
theorem ibGo_id (t : List Tok) : ∀ (cs : List Char),
    (∀ i ≤ cs.length, matchToks t (cs.drop i) = false) → ibGo t 0 cs = cs := by
  intro cs
  induction cs with
  | nil => intro _; rfl
  | cons c cs' ih =>
    intro h
    have h0 : matchToks t (c :: cs') = false := by simpa using h 0 (by omega)
    simp only [ibGo, h0, Bool.false_eq_true, if_false, List.cons.injEq, true_and]
    exact ih (fun i hi => by
      simpa using h (i + 1) (by simp only [List.length_cons]; omega))

/-! ### The newline invariant -/

/-- Every `'\n'` in the text is immediately followed by a match of one of the
patterns in `pats`. -/
def nlOkFor (pats : List (List Tok)) : List Char → Bool
  | [] => true
  | c :: cs =>
    (if c = '\n' then pats.any (fun t => matchToks t cs) else true) && nlOkFor pats cs

theorem nlOkFor_tail {pats : List (List Tok)} {c : Char} {cs : List Char}
    (h : nlOkFor pats (c :: cs) = true) : nlOkFor pats cs = true := by
  simp only [nlOkFor, Bool.and_eq_true] at h
  exact h.2

theorem nlOkFor_head {pats : List (List Tok)} {cs : List Char}
    (h : nlOkFor pats ('\n' :: cs) = true) :
    pats.any (fun t => matchToks t cs) = true := by
  simp only [nlOkFor, if_pos rfl, Bool.and_eq_true] at h
  exact h.1

theorem nlOkFor_drop {pats : List (List Tok)} : ∀ (k : ℕ) (cs : List Char),
    nlOkFor pats cs = true → nlOkFor pats (cs.drop k) = true := by
  intro k
  induction k with
  | zero => intro cs h; simpa using h
  | succ k ih =>
    intro cs h
    cases cs with
    | nil => simpa using h
    | cons c cs' => simpa using ih cs' (nlOkFor_tail h)

theorem nlOkFor_append_nonl {pats : List (List Tok)} :
    ∀ (l z : List Char), (∀ c ∈ l, c ≠ '\n') →
      nlOkFor pats (l ++ z) = nlOkFor pats z := by
  intro l
  induction l with
  | nil => intro z _; rfl
  | cons c l' ih =>
    intro z h
    have hc : ¬(c = '\n') := h c (by simp)
    simp only [List.cons_append, nlOkFor, if_neg hc, Bool.true_and]
    exact ih z (fun c' hc' => h c' (by simp [hc']))

theorem nlOkFor_of_nonl {pats : List (List Tok)} (cs : List Char)
    (h : ∀ c ∈ cs, c ≠ '\n') : nlOkFor pats cs = true := by
  have := @nlOkFor_append_nonl pats cs [] h
  simpa using this


theorem nlOkFor_cons_intro {pats : List (List Tok)} {c : Char} {cs : List Char}
    (h1 : c = '\n' → pats.any (fun t => matchToks t cs) = true)
    (h2 : nlOkFor pats cs = true) : nlOkFor pats (c :: cs) = true := by
  simp only [nlOkFor, Bool.and_eq_true]
  refine ⟨?_, h2⟩
  by_cases hc : c = '\n'
  · simp [hc, h1 hc]
  · simp [hc]

/-- The insertion pass for pattern `t` preserves the newline invariant for the
already-processed patterns and establishes it for `t`. -/
theorem ib_nlOk (t : List Tok) (pats : List (List Tok))
    (Hh : ∀ cs : List Char, matchToks t ('\n' :: cs) = false)
    (Hnl : ∀ tok ∈ t, charOk tok '\n' = false)
    (Hdisc : ∀ t0 ∈ pats, ∀ cs : List Char, matchToks t0 cs = true →
      ∀ i < t0.length, matchToks t (cs.drop i) = false) :
    ∀ (n : ℕ) (cs : List Char), cs.length ≤ n → nlOkFor pats cs = true →
      nlOkFor (t :: pats) (ibGo t 0 cs) = true := by
  have hL : 1 ≤ t.length := by
    cases t with
    | nil => have := Hh []; simp [matchToks] at this
    | cons tok ts => simp
  intro n
  induction n with
  | zero =>
    intro cs h _
    have : cs = [] := List.eq_nil_of_length_eq_zero (Nat.le_zero.mp h)
    subst this
    rfl
  | succ n ih =>
    intro cs hlen hok
    cases cs with
    | nil => rfl
    | cons c cs' =>
      simp only [List.length_cons] at hlen
      have hlen' : cs'.length ≤ n := by omega
      by_cases hm : matchToks t (c :: cs') = true
      · rw [show ibGo t 0 (c :: cs') = '\n' :: c :: ibGo t (t.length - 1) cs' by
          simp [ibGo, hm]]
        rw [ibGo_skip]
        have hregion : c :: cs'.take (t.length - 1) = (c :: cs').take t.length := by
          cases ht : t.length with
          | zero => omega
          | succ m => simp [ht]
        have hmatch_out :
            matchToks t
              (c :: (cs'.take (t.length - 1) ++ ibGo t 0 (cs'.drop (t.length - 1)))) = true := by
          have := @matchToks_take_append t (c :: cs')
            (ibGo t 0 (cs'.drop (t.length - 1))) hm
          rw [← hregion] at this
          simpa using this
        have hnonl : ∀ x ∈ c :: cs'.take (t.length - 1), x ≠ '\n' := by
          intro x hx hxeq
          subst hxeq
          have := nl_not_in_match t (c :: cs') hm Hnl
          rw [← hregion] at this
          exact this hx
        have hrest : nlOkFor (t :: pats)
            (c :: (cs'.take (t.length - 1) ++ ibGo t 0 (cs'.drop (t.length - 1)))) = true := by
          have heq := @nlOkFor_append_nonl (t :: pats)
            (c :: cs'.take (t.length - 1)) (ibGo t 0 (cs'.drop (t.length - 1))) hnonl
          have htail : nlOkFor (t :: pats) (ibGo t 0 (cs'.drop (t.length - 1))) = true :=
            ih (cs'.drop (t.length - 1))
              (by simp only [List.length_drop]; omega)
              (nlOkFor_drop _ _ (nlOkFor_tail hok))
          have := heq.trans (by rw [htail])
          simpa using this
        exact nlOkFor_cons_intro (fun _ => by simp only [List.any_cons]; simp [hmatch_out]) hrest
      · rw [show ibGo t 0 (c :: cs') = c :: ibGo t 0 cs' by simp [ibGo, hm]]
        refine nlOkFor_cons_intro ?_ (ih cs' hlen' (nlOkFor_tail hok))
        intro hc
        subst hc
        have hany := nlOkFor_head hok
        simp only [List.any_eq_true] at hany
        obtain ⟨t0, ht0, hm0⟩ := hany
        have hL0 : t0.length ≤ cs'.length := matchToks_length t0 cs' hm0
        have hcopy : ibGo t 0 cs' = cs'.take t0.length ++ ibGo t 0 (cs'.drop t0.length) :=
          ibGo_copy t t0.length cs' hL0 (Hdisc t0 ht0 cs' hm0)
        have hmatch_out : matchToks t0 (ibGo t 0 cs') = true := by
          rw [hcopy]
          exact matchToks_take_append _ hm0
        simp only [List.any_eq_true]
        exact ⟨t0, by simp [ht0], hmatch_out⟩

/-! ### Shapes of the four markers -/

theorem fm_shape {l : List Char} (hm : matchToks fmToks l = true) :
    ∃ c2 c3 c4 c5 c6 c7 rest, l = 'F' :: 'M' :: c2 :: c3 :: c4 :: c5 :: c6 :: c7 :: rest ∧
      isDigitC c2 = true ∧ isDigitC c3 = true ∧ isDigitC c4 = true ∧
      isDigitC c5 = true ∧ isDigitC c6 = true ∧ isDigitC c7 = true := by
  rcases l with _|⟨a,_|⟨b,_|⟨c2,_|⟨c3,_|⟨c4,_|⟨c5,_|⟨c6,_|⟨c7,rest⟩⟩⟩⟩⟩⟩⟩⟩ <;>
    simp [fmToks, matchToks, charOk] at hm
  obtain ⟨rfl, rfl, h2, h3, h4, h5, h6, h7⟩ := hm
  exact ⟨c2, c3, c4, c5, c6, c7, rest, rfl, h2, h3, h4, h5, h6, h7⟩

theorem becmg_shape {l : List Char} (hm : matchToks becmgToks l = true) :
    ∃ d1 d2 d3 d4 d5 d6 d7 d8 rest,
      l = 'B' :: 'E' :: 'C' :: 'M' :: 'G' :: ' ' :: d1 :: d2 :: d3 :: d4 :: '/' :: d5 :: d6 :: d7 :: d8 :: rest ∧
      isDigitC d1 = true ∧ isDigitC d2 = true ∧ isDigitC d3 = true ∧ isDigitC d4 = true ∧
      isDigitC d5 = true ∧ isDigitC d6 = true ∧ isDigitC d7 = true ∧ isDigitC d8 = true := by
  rcases l with _|⟨a0,_|⟨a1,_|⟨a2,_|⟨a3,_|⟨a4,_|⟨a5,_|⟨d1,_|⟨d2,_|⟨d3,_|⟨d4,_|⟨a10,_|⟨d5,_|⟨d6,_|⟨d7,_|⟨d8,rest⟩⟩⟩⟩⟩⟩⟩⟩⟩⟩⟩⟩⟩⟩⟩ <;>
    simp [becmgToks, matchToks, charOk] at hm
  obtain ⟨rfl, rfl, rfl, rfl, rfl, rfl, h1, h2, h3, h4, rfl, h5, h6, h7, h8⟩ := hm
  exact ⟨d1, d2, d3, d4, d5, d6, d7, d8, rest, rfl, h1, h2, h3, h4, h5, h6, h7, h8⟩

theorem tempo_shape {l : List Char} (hm : matchToks tempoToks l = true) :
    ∃ d1 d2 d3 d4 d5 d6 d7 d8 rest,
      l = 'T' :: 'E' :: 'M' :: 'P' :: 'O' :: ' ' :: d1 :: d2 :: d3 :: d4 :: '/' :: d5 :: d6 :: d7 :: d8 :: rest ∧
      isDigitC d1 = true ∧ isDigitC d2 = true ∧ isDigitC d3 = true ∧ isDigitC d4 = true ∧
      isDigitC d5 = true ∧ isDigitC d6 = true ∧ isDigitC d7 = true ∧ isDigitC d8 = true := by
  rcases l with _|⟨a0,_|⟨a1,_|⟨a2,_|⟨a3,_|⟨a4,_|⟨a5,_|⟨d1,_|⟨d2,_|⟨d3,_|⟨d4,_|⟨a10,_|⟨d5,_|⟨d6,_|⟨d7,_|⟨d8,rest⟩⟩⟩⟩⟩⟩⟩⟩⟩⟩⟩⟩⟩⟩⟩ <;>
    simp [tempoToks, matchToks, charOk] at hm
  obtain ⟨rfl, rfl, rfl, rfl, rfl, rfl, h1, h2, h3, h4, rfl, h5, h6, h7, h8⟩ := hm
  exact ⟨d1, d2, d3, d4, d5, d6, d7, d8, rest, rfl, h1, h2, h3, h4, h5, h6, h7, h8⟩

theorem prob_shape {l : List Char} (hm : matchToks probToks l = true) :
    ∃ p1 p2 d1 d2 d3 d4 d5 d6 d7 d8 rest,
      l = 'P' :: 'R' :: 'O' :: 'B' :: p1 :: p2 :: ' ' :: d1 :: d2 :: d3 :: d4 :: '/' :: d5 :: d6 :: d7 :: d8 :: rest ∧
      isDigitC p1 = true ∧ isDigitC p2 = true ∧
      isDigitC d1 = true ∧ isDigitC d2 = true ∧ isDigitC d3 = true ∧ isDigitC d4 = true ∧
      isDigitC d5 = true ∧ isDigitC d6 = true ∧ isDigitC d7 = true ∧ isDigitC d8 = true := by
  rcases l with _|⟨a0,_|⟨a1,_|⟨a2,_|⟨a3,_|⟨p1,_|⟨p2,_|⟨a6,_|⟨d1,_|⟨d2,_|⟨d3,_|⟨d4,_|⟨a11,_|⟨d5,_|⟨d6,_|⟨d7,_|⟨d8,rest⟩⟩⟩⟩⟩⟩⟩⟩⟩⟩⟩⟩⟩⟩⟩⟩ <;>
    simp [probToks, matchToks, charOk] at hm
  obtain ⟨rfl, rfl, rfl, rfl, hp1, hp2, rfl, h1, h2, h3, h4, rfl, h5, h6, h7, h8⟩ := hm
  exact ⟨p1, p2, d1, d2, d3, d4, d5, d6, d7, d8, rest, rfl,
    hp1, hp2, h1, h2, h3, h4, h5, h6, h7, h8⟩

/-! ### No pattern match can start inside another marker's matched region -/

theorem disc_becmg_fm {cs : List Char} (hm : matchToks becmgToks cs = true) :
    ∀ i < becmgToks.length, matchToks fmToks (cs.drop i) = false := by
  obtain ⟨d1,d2,d3,d4,d5,d6,d7,d8,rest,rfl,h1,h2,h3,h4,h5,h6,h7,h8⟩ := becmg_shape hm
  intro i hi
  simp only [becmgToks, List.length_cons, List.length_nil] at hi
  interval_cases i <;>
    simp [fmToks, matchToks, charOk,
      isDigitC_ne 'F' h1 (by decide), isDigitC_ne 'F' h2 (by decide),
      isDigitC_ne 'F' h3 (by decide), isDigitC_ne 'F' h4 (by decide),
      isDigitC_ne 'F' h5 (by decide), isDigitC_ne 'F' h6 (by decide),
      isDigitC_ne 'F' h7 (by decide), isDigitC_ne 'F' h8 (by decide)]

theorem disc_fm_becmg {cs : List Char} (hm : matchToks fmToks cs = true) :
    ∀ i < fmToks.length, matchToks becmgToks (cs.drop i) = false := by
  obtain ⟨c2,c3,c4,c5,c6,c7,rest,rfl,h2,h3,h4,h5,h6,h7⟩ := fm_shape hm
  intro i hi
  simp only [fmToks, List.length_cons, List.length_nil] at hi
  interval_cases i <;>
    simp [becmgToks, matchToks, charOk,
      isDigitC_ne 'B' h2 (by decide), isDigitC_ne 'B' h3 (by decide),
      isDigitC_ne 'B' h4 (by decide), isDigitC_ne 'B' h5 (by decide),
      isDigitC_ne 'B' h6 (by decide), isDigitC_ne 'B' h7 (by decide)]

theorem disc_fm_tempo {cs : List Char} (hm : matchToks fmToks cs = true) :
    ∀ i < fmToks.length, matchToks tempoToks (cs.drop i) = false := by
  obtain ⟨c2,c3,c4,c5,c6,c7,rest,rfl,h2,h3,h4,h5,h6,h7⟩ := fm_shape hm
  intro i hi
  simp only [fmToks, List.length_cons, List.length_nil] at hi
  interval_cases i <;>
    simp [tempoToks, matchToks, charOk,
      isDigitC_ne 'T' h2 (by decide), isDigitC_ne 'T' h3 (by decide),
      isDigitC_ne 'T' h4 (by decide), isDigitC_ne 'T' h5 (by decide),
      isDigitC_ne 'T' h6 (by decide), isDigitC_ne 'T' h7 (by decide)]

theorem disc_fm_prob {cs : List Char} (hm : matchToks fmToks cs = true) :
    ∀ i < fmToks.length, matchToks probToks (cs.drop i) = false := by
  obtain ⟨c2,c3,c4,c5,c6,c7,rest,rfl,h2,h3,h4,h5,h6,h7⟩ := fm_shape hm
  intro i hi
  simp only [fmToks, List.length_cons, List.length_nil] at hi
  interval_cases i <;>
    simp [probToks, matchToks, charOk,
      isDigitC_ne 'P' h2 (by decide), isDigitC_ne 'P' h3 (by decide),
      isDigitC_ne 'P' h4 (by decide), isDigitC_ne 'P' h5 (by decide),
      isDigitC_ne 'P' h6 (by decide), isDigitC_ne 'P' h7 (by decide)]

theorem disc_becmg_tempo {cs : List Char} (hm : matchToks becmgToks cs = true) :
    ∀ i < becmgToks.length, matchToks tempoToks (cs.drop i) = false := by
  obtain ⟨d1,d2,d3,d4,d5,d6,d7,d8,rest,rfl,h1,h2,h3,h4,h5,h6,h7,h8⟩ := becmg_shape hm
  intro i hi
  simp only [becmgToks, List.length_cons, List.length_nil] at hi
  interval_cases i <;>
    simp [tempoToks, matchToks, charOk,
      isDigitC_ne 'T' h1 (by decide), isDigitC_ne 'T' h2 (by decide),
      isDigitC_ne 'T' h3 (by decide), isDigitC_ne 'T' h4 (by decide),
      isDigitC_ne 'T' h5 (by decide), isDigitC_ne 'T' h6 (by decide),
      isDigitC_ne 'T' h7 (by decide), isDigitC_ne 'T' h8 (by decide)]

theorem disc_becmg_prob {cs : List Char} (hm : matchToks becmgToks cs = true) :
    ∀ i < becmgToks.length, matchToks probToks (cs.drop i) = false := by
  obtain ⟨d1,d2,d3,d4,d5,d6,d7,d8,rest,rfl,h1,h2,h3,h4,h5,h6,h7,h8⟩ := becmg_shape hm
  intro i hi
  simp only [becmgToks, List.length_cons, List.length_nil] at hi
  interval_cases i <;>
    simp [probToks, matchToks, charOk,
      isDigitC_ne 'P' h1 (by decide), isDigitC_ne 'P' h2 (by decide),
      isDigitC_ne 'P' h3 (by decide), isDigitC_ne 'P' h4 (by decide),
      isDigitC_ne 'P' h5 (by decide), isDigitC_ne 'P' h6 (by decide),
      isDigitC_ne 'P' h7 (by decide), isDigitC_ne 'P' h8 (by decide)]

theorem disc_tempo_prob {cs : List Char} (hm : matchToks tempoToks cs = true) :
    ∀ i < tempoToks.length, matchToks probToks (cs.drop i) = false := by
  obtain ⟨d1,d2,d3,d4,d5,d6,d7,d8,rest,rfl,h1,h2,h3,h4,h5,h6,h7,h8⟩ := tempo_shape hm
  intro i hi
  simp only [tempoToks, List.length_cons, List.length_nil] at hi
  interval_cases i <;>
    simp [probToks, matchToks, charOk,
      isDigitC_ne 'P' h1 (by decide), isDigitC_ne 'P' h2 (by decide),
      isDigitC_ne 'P' h3 (by decide), isDigitC_ne 'P' h4 (by decide),
      isDigitC_ne 'P' h5 (by decide), isDigitC_ne 'P' h6 (by decide),
      isDigitC_ne 'P' h7 (by decide), isDigitC_ne 'P' h8 (by decide)]

/-- No BECMG match can start strictly inside a BECMG region. -/
theorem disc_becmg_becmg_tail {cs : List Char} (hm : matchToks becmgToks cs = true) :
    ∀ i, 1 ≤ i → i < becmgToks.length → matchToks becmgToks (cs.drop i) = false := by
  obtain ⟨d1,d2,d3,d4,d5,d6,d7,d8,rest,rfl,h1,h2,h3,h4,h5,h6,h7,h8⟩ := becmg_shape hm
  intro i hi1 hi
  simp only [becmgToks, List.length_cons, List.length_nil] at hi
  interval_cases i <;>
    simp [becmgToks, matchToks, charOk,
      isDigitC_ne 'B' h1 (by decide), isDigitC_ne 'B' h2 (by decide),
      isDigitC_ne 'B' h3 (by decide), isDigitC_ne 'B' h4 (by decide),
      isDigitC_ne 'B' h5 (by decide), isDigitC_ne 'B' h6 (by decide),
      isDigitC_ne 'B' h7 (by decide), isDigitC_ne 'B' h8 (by decide)]

/-! ### Patterns and newlines -/

theorem fm_nl_false (cs : List Char) : matchToks fmToks ('\n' :: cs) = false := by
  simp [fmToks, matchToks, charOk]

theorem becmg_nl_false (cs : List Char) : matchToks becmgToks ('\n' :: cs) = false := by
  simp [becmgToks, matchToks, charOk]

theorem tempo_nl_false (cs : List Char) : matchToks tempoToks ('\n' :: cs) = false := by
  simp [tempoToks, matchToks, charOk]

theorem prob_nl_false (cs : List Char) : matchToks probToks ('\n' :: cs) = false := by
  simp [probToks, matchToks, charOk]

theorem fm_toks_nonl : ∀ tok ∈ fmToks, charOk tok '\n' = false := by decide
theorem becmg_toks_nonl : ∀ tok ∈ becmgToks, charOk tok '\n' = false := by decide
theorem tempo_toks_nonl : ∀ tok ∈ tempoToks, charOk tok '\n' = false := by decide
theorem prob_toks_nonl : ∀ tok ∈ probToks, charOk tok '\n' = false := by decide

/-! ### Pieces of the split -/

theorem splitNl_ne_nil : ∀ cs : List Char, splitNl cs ≠ [] := by
  intro cs
  cases cs with
  | nil => simp [splitNl]
  | cons c cs' =>
    simp only [splitNl]
    by_cases hc : c = '\n'
    · simp [hc]
    · simp only [if_neg hc]
      cases splitNl cs' <;> simp

theorem splitNl_cons_of_ne {c : Char} (cs : List Char) (hc : ¬(c = '\n')) :
    ∃ p ps, splitNl cs = p :: ps ∧ splitNl (c :: cs) = (c :: p) :: ps := by
  cases h : splitNl cs with
  | nil => exact absurd h (splitNl_ne_nil cs)
  | cons p ps => exact ⟨p, ps, rfl, by simp [splitNl, hc, h]⟩

theorem splitNl_nl (cs : List Char) : splitNl ('\n' :: cs) = [] :: splitNl cs := by
  simp [splitNl]

theorem splitNl_no_nl : ∀ cs : List Char, (∀ c ∈ cs, c ≠ '\n') → splitNl cs = [cs] := by
  intro cs
  induction cs with
  | nil => intro _; rfl
  | cons c cs' ih =>
    intro h
    obtain ⟨p, ps, hsp, heq⟩ := splitNl_cons_of_ne cs' (h c (by simp))
    rw [heq]
    have := ih (fun c' hc' => h c' (by simp [hc']))
    rw [this] at hsp
    obtain ⟨rfl, rfl⟩ : p = cs' ∧ ps = [] := by
      constructor <;> [exact (List.cons.injEq _ _ _ _ ▸ hsp).1.symm;
        exact (List.cons.injEq _ _ _ _ ▸ hsp).2.symm]
    rfl

/-- A pattern match at the start of the text is a match at the start of the
first piece of the split (the pattern cannot contain a newline). -/
theorem matchToks_firstPiece : ∀ (t : List Tok) (cs p0 : List Char) (ps : List (List Char)),
    matchToks t cs = true → (∀ tok ∈ t, charOk tok '\n' = false) →
    splitNl cs = p0 :: ps → matchToks t p0 = true := by
  intro t
  induction t with
  | nil => intro cs p0 ps _ _ _; rfl
  | cons tok ts ih =>
    intro cs p0 ps hm hnl hsplit
    cases cs with
    | nil => simp [matchToks] at hm
    | cons c cs' =>
      simp only [matchToks, Bool.and_eq_true] at hm
      have hc : ¬(c = '\n') := by
        intro h
        subst h
        exact absurd hm.1 (by simp [hnl tok (by simp)])
      obtain ⟨p, ps', hsplit', heq⟩ := splitNl_cons_of_ne cs' hc
      rw [heq] at hsplit
      have hinj := List.cons.injEq (c :: p) ps' p0 ps ▸ hsplit
      obtain ⟨rfl, rfl⟩ : c :: p = p0 ∧ ps' = ps := hinj
      simp only [matchToks, Bool.and_eq_true, hm.1, true_and]
      exact ih cs' p ps' hm.2 (fun tok' ht' => hnl tok' (by simp [ht'])) hsplit'

/-- Under the newline invariant, every piece of the split except the first
starts with one of the patterns. -/
theorem splitNl_tail_marker (pats : List (List Tok))
    (hnl : ∀ t0 ∈ pats, ∀ tok ∈ t0, charOk tok '\n' = false) :
    ∀ cs, nlOkFor pats cs = true →
      ∀ p ∈ (splitNl cs).tail, pats.any (fun t => matchToks t p) = true := by
  intro cs
  induction cs with
  | nil => intro _ p hp; simp [splitNl] at hp
  | cons c cs' ih =>
    intro hok p hp
    by_cases hc : c = '\n'
    · subst hc
      rw [splitNl_nl, List.tail_cons] at hp
      cases hsp : splitNl cs' with
      | nil => exact absurd hsp (splitNl_ne_nil cs')
      | cons p0 ps =>
        rw [hsp] at hp
        rcases List.mem_cons.mp hp with rfl | hp'
        · have hany := nlOkFor_head hok
          simp only [List.any_eq_true] at hany ⊢
          obtain ⟨t0, ht0, hm0⟩ := hany
          exact ⟨t0, ht0, matchToks_firstPiece t0 cs' p ps hm0 (hnl t0 ht0) hsp⟩
        · have hih := ih (nlOkFor_tail hok)
          rw [hsp] at hih
          exact hih p hp'
    · obtain ⟨p0, ps, hsp, heq⟩ := splitNl_cons_of_ne cs' hc
      rw [heq, List.tail_cons] at hp
      have hih := ih (nlOkFor_tail hok)
      rw [hsp] at hih
      exact hih p (by simp [hp])

/-! ### Trimming preserves a marker prefix -/

theorem mem_takeWhile_ws : ∀ (l : List Char) (c : Char),
    c ∈ l.takeWhile isWsJS → isWsJS c = true := by
  intro l
  induction l with
  | nil => intro c hc; simp [List.takeWhile] at hc
  | cons a l' ih =>
    intro c hc
    by_cases ha : isWsJS a
    · rw [List.takeWhile_cons, if_pos ha] at hc
      rcases List.mem_cons.mp hc with rfl | hc'
      · exact ha
      · exact ih c hc'
    · rw [List.takeWhile_cons, if_neg ha] at hc
      simp at hc

theorem trimBack_decomp (l : List Char) :
    ∃ w, l = (l.reverse.dropWhile isWsJS).reverse ++ w ∧ ∀ c ∈ w, isWsJS c = true := by
  refine ⟨(l.reverse.takeWhile isWsJS).reverse, ?_, ?_⟩
  · conv_lhs => rw [← l.reverse_reverse,
      ← @List.takeWhile_append_dropWhile _ isWsJS l.reverse]
    rw [List.reverse_append]
  · intro c hc
    rw [List.mem_reverse] at hc
    exact mem_takeWhile_ws l.reverse c hc

theorem matchToks_concat_dig : ∀ (ts : List Tok) (l : List Char),
    matchToks (ts ++ [Tok.dig]) l = true →
    ∃ l1 d l2, l = l1 ++ d :: l2 ∧ l1.length = ts.length ∧ isDigitC d = true := by
  intro ts
  induction ts with
  | nil =>
    intro l hm
    cases l with
    | nil => simp [matchToks] at hm
    | cons c cs =>
      simp only [List.nil_append, matchToks, charOk, Bool.and_eq_true] at hm
      exact ⟨[], c, cs, rfl, rfl, hm.1⟩
  | cons tok ts' ih =>
    intro l hm
    cases l with
    | nil => simp [matchToks] at hm
    | cons c cs =>
      simp only [List.cons_append, matchToks, Bool.and_eq_true] at hm
      obtain ⟨l1, d, l2, rfl, hlen, hd⟩ := ih cs hm.2
      exact ⟨c :: l1, d, l2, rfl, by simp [hlen], hd⟩

/-- A match of a pattern that starts with a non-whitespace literal and ends
with a digit survives `trim`. -/
theorem matchToks_trim {t : List Tok} {l : List Char}
    (hm : matchToks t l = true)
    (hhead : ∃ c0 ts0, t = Tok.lit c0 :: ts0 ∧ isWsJS c0 = false)
    (hlast : ∃ ts1, t = ts1 ++ [Tok.dig]) :
    matchToks t (trimJS l) = true := by
  obtain ⟨c0, ts0, ht0, hws⟩ := hhead
  obtain ⟨ts1, ht1⟩ := hlast
  cases l with
  | nil => rw [ht0] at hm; simp [matchToks] at hm
  | cons c ls =>
    have hc : c = c0 := by
      rw [ht0] at hm
      simp only [matchToks, charOk, Bool.and_eq_true, decide_eq_true_eq] at hm
      exact hm.1
    have hcws : ¬(isWsJS c = true) := by rw [hc, hws]; simp
    have hfront : (c :: ls).dropWhile isWsJS = c :: ls := by
      rw [List.dropWhile_cons, if_neg hcws]
    unfold trimJS
    rw [hfront]
    obtain ⟨w, hdecomp, hwsall⟩ := trimBack_decomp (c :: ls)
    obtain ⟨l1, d, l2, hl, hlen, hd⟩ := matchToks_concat_dig ts1 (c :: ls) (ht1 ▸ hm)
    have hlenA : t.length ≤ ((c :: ls).reverse.dropWhile isWsJS).reverse.length := by
      by_contra hlt
      push_neg at hlt
      have hAle : ((c :: ls).reverse.dropWhile isWsJS).reverse.length ≤ l1.length := by
        rw [ht1] at hlt
        simp only [List.length_append, List.length_cons, List.length_nil] at hlt
        omega
      obtain ⟨k, hk⟩ : ∃ k, l1.length =
          ((c :: ls).reverse.dropWhile isWsJS).reverse.length + k :=
        ⟨_, (Nat.add_sub_cancel' hAle).symm⟩
      have hdw : d ∈ w := by
        have h1 : d ∈ (c :: ls).drop l1.length := by
          rw [hl, List.drop_left]
          simp
        rw [hdecomp, hk, List.drop_append] at h1
        exact List.drop_subset k w h1
      have := hwsall d hdw
      rw [digit_not_ws hd] at this
      simp at this
    have hm' : matchToks t (((c :: ls).reverse.dropWhile isWsJS).reverse ++ w) = true := by
      rw [← hdecomp]
      exact hm
    exact matchToks_append_left t _ w hm' hlenA

/-! ### From digit positions to parsed day/hour fields -/

/-- Positions `o` and `o+1` of the line hold decimal digits. -/
def digitsAt (l : List Char) (o : ℕ) : Prop :=
  ∃ a b r, l.drop o = a :: b :: r ∧ isDigitC a = true ∧ isDigitC b = true

theorem parseIntJS_two_digits {a b : Char} (ha : isDigitC a = true)
    (hb : isDigitC b = true) :
    ∃ d : ℤ, parseIntJS [a, b] = JsNum.int d ∧ 0 ≤ d ∧ d ≤ 99 := by
  have hwa : isWsJS a = false := digit_not_ws ha
  have hna : ¬(a = '-') := isDigitC_ne '-' ha (by decide)
  have hpa : ¬(a = '+') := isDigitC_ne '+' ha (by decide)
  refine ⟨(10 * (a.toNat - 48) + (b.toNat - 48) : ℕ), ?_, ?_, ?_⟩
  · simp only [parseIntJS, List.dropWhile, hwa, Bool.false_eq_true, if_false,
      List.head?, List.tail]
    rw [if_neg (by simp [hna, hpa])]
    rw [List.takeWhile_cons, if_pos ha, List.takeWhile_cons, if_pos hb]
    simp only [List.takeWhile_nil]
    rw [if_neg (by simp [hna])]
    simp [digitsToNat]
  · positivity
  · simp only [isDigitC, Bool.and_eq_true, decide_eq_true_eq] at ha hb
    have : 10 * (a.toNat - 48) + (b.toNat - 48) ≤ 99 := by omega
    exact_mod_cast this

theorem substringJS_digitsAt {l : List Char} {o : ℕ} (b : ℕ) (hb : b = o + 2)
    (h : digitsAt l o) :
    ∃ d : ℤ, parseIntJS (substringJS l o b) = JsNum.int d ∧ 0 ≤ d ∧ d ≤ 99 := by
  obtain ⟨x, y, r, hdrop, hx, hy⟩ := h
  have hsub : substringJS l o b = [x, y] := by
    unfold substringJS
    rw [hdrop, hb]
    simp
  rw [hsub]
  exact parseIntJS_two_digits hx hy

/-! ### Lines that are safe to classify -/

/-- Whenever the line starts with one of the day/hour-bearing prefixes, the
fixed offsets the classifier reads hold digits. -/
def lineOk (l : List Char) : Prop :=
  ("FM".data.isPrefixOf l = true → digitsAt l 2 ∧ digitsAt l 4) ∧
  ("TEMPO".data.isPrefixOf l = true → digitsAt l 6 ∧ digitsAt l 8) ∧
  ("BECMG".data.isPrefixOf l = true → digitsAt l 6 ∧ digitsAt l 8)

/-- The per-entry invariant of claim C10 (apart from the raw-text clauses). -/
def goodEntry (e : TafEntry) : Prop :=
  ((e.type = TafType.FM ∨ e.type = TafType.TEMPO ∨ e.type = TafType.BECMG) →
    ∃ d h : ℤ, e.day = some (JsNum.int d) ∧ e.hour = some (JsNum.int h) ∧
      0 ≤ d ∧ d ≤ 99 ∧ 0 ≤ h ∧ h ≤ 99) ∧
  ((e.type = TafType.HEADER ∨ e.type = TafType.BASE) →
    e.day = none ∧ e.hour = none)

theorem classify_good (idx : ℕ) (l : List Char) (hok : lineOk l) :
    goodEntry (classify idx l) ∧ (classify idx l).raw = l := by
  unfold classify
  by_cases hfm : "FM".data.isPrefixOf l = true
  · rw [if_pos hfm]
    obtain ⟨d, hd, hd0, hd99⟩ := substringJS_digitsAt 4 (by norm_num) (hok.1 hfm).1
    obtain ⟨h, hh, hh0, hh99⟩ := substringJS_digitsAt 6 (by norm_num) (hok.1 hfm).2
    refine ⟨⟨fun _ => ⟨d, h, by simpa using hd, by simpa using hh, hd0, hd99, hh0, hh99⟩,
      fun hcontra => ?_⟩, rfl⟩
    rcases hcontra with h' | h' <;> simp at h'
  · rw [if_neg hfm]
    by_cases htempo : "TEMPO".data.isPrefixOf l = true
    · rw [if_pos htempo]
      obtain ⟨d, hd, hd0, hd99⟩ := substringJS_digitsAt 8 (by norm_num) (hok.2.1 htempo).1
      obtain ⟨h, hh, hh0, hh99⟩ := substringJS_digitsAt 10 (by norm_num) (hok.2.1 htempo).2
      refine ⟨⟨fun _ => ⟨d, h, by simpa using hd, by simpa using hh, hd0, hd99, hh0, hh99⟩,
        fun hcontra => ?_⟩, rfl⟩
      rcases hcontra with h' | h' <;> simp at h'
    · rw [if_neg htempo]
      by_cases hbecmg : "BECMG".data.isPrefixOf l = true
      · rw [if_pos hbecmg]
        obtain ⟨d, hd, hd0, hd99⟩ := substringJS_digitsAt 8 (by norm_num) (hok.2.2 hbecmg).1
        obtain ⟨h, hh, hh0, hh99⟩ := substringJS_digitsAt 10 (by norm_num) (hok.2.2 hbecmg).2
        refine ⟨⟨fun _ => ⟨d, h, by simpa using hd, by simpa using hh, hd0, hd99, hh0, hh99⟩,
          fun hcontra => ?_⟩, rfl⟩
        rcases hcontra with h' | h' <;> simp at h'
      · rw [if_neg hbecmg]
        by_cases hhdr : "TAF".data.isPrefixOf l = true ∨ idx = 0
        · rw [if_pos hhdr]
          exact ⟨⟨fun hcontra => by rcases hcontra with h' | h' | h' <;> simp at h',
            fun _ => ⟨rfl, rfl⟩⟩, rfl⟩
        · rw [if_neg hhdr]
          exact ⟨⟨fun hcontra => by rcases hcontra with h' | h' | h' <;> simp at h',
            fun _ => ⟨rfl, rfl⟩⟩, rfl⟩

theorem fm_data_eq : "FM".data = ['F', 'M'] := rfl
theorem tempo_data_eq : "TEMPO".data = ['T', 'E', 'M', 'P', 'O'] := rfl
theorem becmg_data_eq : "BECMG".data = ['B', 'E', 'C', 'M', 'G'] := rfl
theorem taf_data_eq : "TAF".data = ['T', 'A', 'F'] := rfl

theorem lineOk_of_fm {l : List Char} (hm : matchToks fmToks l = true) : lineOk l := by
  obtain ⟨c2,c3,c4,c5,c6,c7,rest,rfl,h2,h3,h4,h5,h6,h7⟩ := fm_shape hm
  refine ⟨fun _ => ⟨⟨c2, c3, _, rfl, h2, h3⟩, ⟨c4, c5, _, rfl, h4, h5⟩⟩,
    fun htempo => ?_, fun hbecmg => ?_⟩
  · rw [tempo_data_eq] at htempo
    simp [List.isPrefixOf] at htempo
  · rw [becmg_data_eq] at hbecmg
    simp [List.isPrefixOf] at hbecmg

theorem lineOk_of_tempo {l : List Char} (hm : matchToks tempoToks l = true) : lineOk l := by
  obtain ⟨d1,d2,d3,d4,d5,d6,d7,d8,rest,rfl,h1,h2,h3,h4,h5,h6,h7,h8⟩ := tempo_shape hm
  refine ⟨fun hfm => ?_, fun _ => ⟨⟨d1, d2, _, rfl, h1, h2⟩, ⟨d3, d4, _, rfl, h3, h4⟩⟩,
    fun hbecmg => ?_⟩
  · rw [fm_data_eq] at hfm
    simp [List.isPrefixOf] at hfm
  · rw [becmg_data_eq] at hbecmg
    simp [List.isPrefixOf] at hbecmg

theorem lineOk_of_becmg {l : List Char} (hm : matchToks becmgToks l = true) : lineOk l := by
  obtain ⟨d1,d2,d3,d4,d5,d6,d7,d8,rest,rfl,h1,h2,h3,h4,h5,h6,h7,h8⟩ := becmg_shape hm
  refine ⟨fun hfm => ?_, fun htempo => ?_,
    fun _ => ⟨⟨d1, d2, _, rfl, h1, h2⟩, ⟨d3, d4, _, rfl, h3, h4⟩⟩⟩
  · rw [fm_data_eq] at hfm
    simp [List.isPrefixOf] at hfm
  · rw [tempo_data_eq] at htempo
    simp [List.isPrefixOf] at htempo

theorem lineOk_of_prob {l : List Char} (hm : matchToks probToks l = true) : lineOk l := by
  obtain ⟨p1,p2,d1,d2,d3,d4,d5,d6,d7,d8,rest,rfl,hp1,hp2,h1,h2,h3,h4,h5,h6,h7,h8⟩ :=
    prob_shape hm
  refine ⟨fun hfm => ?_, fun htempo => ?_, fun hbecmg => ?_⟩
  · rw [fm_data_eq] at hfm
    simp [List.isPrefixOf] at hfm
  · rw [tempo_data_eq] at htempo
    simp [List.isPrefixOf] at htempo
  · rw [becmg_data_eq] at hbecmg
    simp [List.isPrefixOf] at hbecmg

/-- A line whose first two characters are `'T'`, `'A'` never reaches the
day/hour-reading branches of the classifier. -/
theorem lineOk_of_TA (xs : List Char) : lineOk ('T' :: 'A' :: xs) := by
  refine ⟨fun hfm => ?_, fun htempo => ?_, fun hbecmg => ?_⟩
  · rw [fm_data_eq] at hfm
    simp [List.isPrefixOf] at hfm
  · rw [tempo_data_eq] at htempo
    simp [List.isPrefixOf] at htempo
  · rw [becmg_data_eq] at hbecmg
    simp [List.isPrefixOf] at hbecmg

theorem lineOk_nil : lineOk [] := by
  refine ⟨fun hfm => ?_, fun htempo => ?_, fun hbecmg => ?_⟩
  · rw [fm_data_eq] at hfm
    simp [List.isPrefixOf] at hfm
  · rw [tempo_data_eq] at htempo
    simp [List.isPrefixOf] at htempo
  · rw [becmg_data_eq] at hbecmg
    simp [List.isPrefixOf] at hbecmg

/-- Any marker line (after trimming) is safe to classify. -/
theorem lineOk_of_any_marker {l : List Char}
    (h : [probToks, tempoToks, becmgToks, fmToks].any (fun t => matchToks t l) = true) :
    lineOk (trimJS l) := by
  simp only [List.any_cons, List.any_nil, Bool.or_eq_true, Bool.or_false] at h
  rcases h with h | h | h | h
  · exact lineOk_of_prob (matchToks_trim h
      ⟨'P', _, rfl, by decide⟩ ⟨[.lit 'P', .lit 'R', .lit 'O', .lit 'B', .dig, .dig, .lit ' ',
        .dig, .dig, .dig, .dig, .lit '/', .dig, .dig, .dig], rfl⟩)
  · exact lineOk_of_tempo (matchToks_trim h
      ⟨'T', _, rfl, by decide⟩ ⟨[.lit 'T', .lit 'E', .lit 'M', .lit 'P', .lit 'O', .lit ' ',
        .dig, .dig, .dig, .dig, .lit '/', .dig, .dig, .dig], rfl⟩)
  · exact lineOk_of_becmg (matchToks_trim h
      ⟨'B', _, rfl, by decide⟩ ⟨[.lit 'B', .lit 'E', .lit 'C', .lit 'M', .lit 'G', .lit ' ',
        .dig, .dig, .dig, .dig, .lit '/', .dig, .dig, .dig], rfl⟩)
  · exact lineOk_of_fm (matchToks_trim h
      ⟨'F', _, rfl, by decide⟩ ⟨[.lit 'F', .lit 'M', .dig, .dig, .dig, .dig, .dig], rfl⟩)

/-! ### More support lemmas for the parser invariant -/

theorem mem_enumIdx {α : Type} : ∀ (n : ℕ) (l : List α) (p : ℕ × α),
    p ∈ enumIdx n l → p.2 ∈ l := by
  intro n l
  induction l generalizing n with
  | nil => intro p hp; simp [enumIdx] at hp
  | cons a l' ih =>
    intro p hp
    simp only [enumIdx, List.mem_cons] at hp
    rcases hp with rfl | hp
    · simp
    · exact List.mem_cons.mpr (Or.inr (ih (n + 1) p hp))

theorem dropWhile_ws_head : ∀ (l : List Char) (c : Char) (cs : List Char),
    l.dropWhile isWsJS = c :: cs → isWsJS c = false := by
  intro l
  induction l with
  | nil => intro c cs h; simp [List.dropWhile] at h
  | cons a l' ih =>
    intro c cs h
    by_cases ha : isWsJS a
    · rw [List.dropWhile_cons, if_pos ha] at h
      exact ih c cs h
    · rw [List.dropWhile_cons, if_neg ha] at h
      obtain ⟨rfl, -⟩ : a = c ∧ l' = cs := by simpa using h
      simpa using ha

theorem dropWhile_ws_idem (l : List Char) :
    (l.dropWhile isWsJS).dropWhile isWsJS = l.dropWhile isWsJS := by
  cases h : l.dropWhile isWsJS with
  | nil => rfl
  | cons c cs =>
    rw [List.dropWhile_cons, if_neg (by simp [dropWhile_ws_head l c cs h])]

theorem trimJS_idem (l : List Char) : trimJS (trimJS l) = trimJS l := by
  unfold trimJS
  have h1 : (((l.dropWhile isWsJS).reverse.dropWhile isWsJS).reverse).dropWhile isWsJS =
      ((l.dropWhile isWsJS).reverse.dropWhile isWsJS).reverse := by
    cases h : ((l.dropWhile isWsJS).reverse.dropWhile isWsJS).reverse with
    | nil => rfl
    | cons c cs =>
      have hmem : (l.dropWhile isWsJS).reverse.dropWhile isWsJS = (c :: cs).reverse := by
        rw [← h, List.reverse_reverse]
      obtain ⟨w, hdec, hws⟩ := trimBack_decomp (l.dropWhile isWsJS)
      have hX : l.dropWhile isWsJS = c :: (cs ++ w) := by
        rw [hdec, h]
        simp
      have hc : isWsJS c = false := dropWhile_ws_head l c (cs ++ w) hX
      rw [List.dropWhile_cons, if_neg (by simp [hc])]
  rw [h1, List.reverse_reverse, dropWhile_ws_idem]

theorem findIdx_some : ∀ (needle hay : List Char) (i : ℕ),
    findIdx needle hay = some i → needle.isPrefixOf (hay.drop i) = true := by
  intro needle hay
  induction hay generalizing needle with
  | nil =>
    intro i h
    simp only [findIdx] at h
    by_cases hne : needle.isEmpty
    · rw [if_pos hne] at h
      obtain rfl : (0 : ℕ) = i := by simpa using h
      cases needle with
      | nil => simp [List.isPrefixOf]
      | cons c cs => simp at hne
    · rw [if_neg hne] at h
      simp at h
  | cons c cs ih =>
    intro i h
    simp only [findIdx] at h
    by_cases hp : needle.isPrefixOf (c :: cs) = true
    · rw [if_pos hp] at h
      obtain rfl : (0 : ℕ) = i := by simpa using h
      simpa using hp
    · rw [if_neg (by simpa using hp)] at h
      cases hfind : findIdx needle cs with
      | none => rw [hfind] at h; simp at h
      | some j =>
        rw [hfind] at h
        obtain rfl : j + 1 = i := by simpa using h
        simpa using ih needle j hfind

theorem findMarkerIdx_some : ∀ (hay : List Char) (i : ℕ),
    findMarkerIdx hay = some i →
    matchToks fmToks (hay.drop i) = true ∨ matchToks becmgToks (hay.drop i) = true := by
  intro hay
  induction hay with
  | nil => intro i h; simp [findMarkerIdx] at h
  | cons c cs ih =>
    intro i h
    simp only [findMarkerIdx] at h
    by_cases hm : (matchToks fmToks (c :: cs) || matchToks becmgToks (c :: cs)) = true
    · rw [if_pos hm] at h
      obtain rfl : (0 : ℕ) = i := by simpa using h
      simpa using hm
    · rw [if_neg (by simpa using hm)] at h
      cases hfind : findMarkerIdx cs with
      | none => rw [hfind] at h; simp at h
      | some j =>
        rw [hfind] at h
        obtain rfl : j + 1 = i := by simpa using h
        simpa using ih j hfind

theorem findFrom_ge {needle hay : List Char} {start i : ℕ}
    (h : findFrom needle hay start = some i) : start ≤ i := by
  unfold findFrom at h
  cases hf : findIdx needle (hay.drop start) with
  | none => rw [hf] at h; simp at h
  | some j =>
    rw [hf] at h
    obtain rfl : j + start = i := by simpa using h
    omega

theorem stopIndex_cases (block : List Char) :
    stopIndex block = block.length ∨ 10 ≤ stopIndex block := by
  unfold stopIndex
  have : ∀ (ms : List (List Char)) (acc : ℕ), (acc = block.length ∨ 10 ≤ acc) →
      (ms.foldl (fun e m =>
        match findFrom m block 10 with
        | some i => if i < e then i else e
        | none => e) acc = block.length ∨
       10 ≤ ms.foldl (fun e m =>
        match findFrom m block 10 with
        | some i => if i < e then i else e
        | none => e) acc) := by
    intro ms
    induction ms with
    | nil => intro acc hacc; simpa using hacc
    | cons m ms' ih =>
      intro acc hacc
      rw [List.foldl_cons]
      apply ih
      cases hf : findFrom m block 10 with
      | none => simpa using hacc
      | some i =>
        simp only
        by_cases hlt : i < acc
        · rw [if_pos hlt]
          exact Or.inr (findFrom_ge hf)
        · rw [if_neg hlt]
          exact hacc
  exact this stopMarkersL block.length (Or.inl rfl)

/-! ### The pipeline's newline invariant -/

theorem formatted_nlOk (tafBlock : List Char) (hnl : ∀ c ∈ tafBlock, c ≠ '\n') :
    nlOkFor [probToks, tempoToks, becmgToks, fmToks]
      (insertBreaks probToks (insertBreaks tempoToks
        (insertBreaks becmgToks (insertBreaks fmToks tafBlock)))) = true := by
  have h0 : nlOkFor [] tafBlock = true := nlOkFor_of_nonl tafBlock hnl
  have h1 : nlOkFor [fmToks] (insertBreaks fmToks tafBlock) = true :=
    ib_nlOk fmToks [] fm_nl_false fm_toks_nonl (by simp)
      tafBlock.length tafBlock le_rfl h0
  have h2 : nlOkFor [becmgToks, fmToks]
      (insertBreaks becmgToks (insertBreaks fmToks tafBlock)) = true :=
    ib_nlOk becmgToks [fmToks] becmg_nl_false becmg_toks_nonl
      (by
        intro t0 ht0 cs hm i hi
        simp only [List.mem_singleton, List.not_mem_nil, or_false] at ht0
        subst ht0
        exact disc_fm_becmg hm i hi)
      _ _ le_rfl h1
  have h3 : nlOkFor [tempoToks, becmgToks, fmToks]
      (insertBreaks tempoToks (insertBreaks becmgToks (insertBreaks fmToks tafBlock))) = true :=
    ib_nlOk tempoToks [becmgToks, fmToks] tempo_nl_false tempo_toks_nonl
      (by
        intro t0 ht0 cs hm i hi
        simp only [List.mem_cons, List.not_mem_nil, or_false] at ht0
        rcases ht0 with rfl | rfl
        · exact disc_becmg_tempo hm i hi
        · exact disc_fm_tempo hm i hi)
      _ _ le_rfl h2
  exact ib_nlOk probToks [tempoToks, becmgToks, fmToks] prob_nl_false prob_toks_nonl
    (by
      intro t0 ht0 cs hm i hi
      simp only [List.mem_cons, List.not_mem_nil, or_false] at ht0
      rcases ht0 with rfl | rfl | rfl
      · exact disc_tempo_prob hm i hi
      · exact disc_becmg_prob hm i hi
      · exact disc_fm_prob hm i hi)
    _ _ le_rfl h3

theorem pats4_nonl :
    ∀ t0 ∈ [probToks, tempoToks, becmgToks, fmToks], ∀ tok ∈ t0, charOk tok '\n' = false := by
  intro t0 ht0
  simp only [List.mem_cons, List.not_mem_nil, or_false] at ht0
  rcases ht0 with rfl | rfl | rfl | rfl
  · exact prob_toks_nonl
  · exact tempo_toks_nonl
  · exact becmg_toks_nonl
  · exact fm_toks_nonl

/-! ### Helpers for the first piece of the split -/

theorem ib_match0 {t : List Tok} {c : Char} {cs : List Char}
    (hm : matchToks t (c :: cs) = true) :
    ibGo t 0 (c :: cs) = '\n' :: c :: ibGo t (t.length - 1) cs := by
  simp [ibGo, hm]

theorem ib_keep_nl {t : List Tok} (z : List Char)
    (hnl : matchToks t ('\n' :: z) = false) :
    ibGo t 0 ('\n' :: z) = '\n' :: ibGo t 0 z := by
  simp [ibGo, hnl]

theorem noMatch_TA (t : List Tok)
    (ht : t = fmToks ∨ t = becmgToks ∨ t = tempoToks ∨ t = probToks) :
    (∀ x, matchToks t ('T' :: 'A' :: x) = false) ∧
    (∀ x, matchToks t ('A' :: x) = false) := by
  rcases ht with rfl | rfl | rfl | rfl <;>
    exact ⟨fun x => by simp [fmToks, becmgToks, tempoToks, probToks, matchToks, charOk],
      fun x => by simp [fmToks, becmgToks, tempoToks, probToks, matchToks, charOk]⟩

theorem ib_TA (t : List Tok)
    (ht : t = fmToks ∨ t = becmgToks ∨ t = tempoToks ∨ t = probToks) (v : List Char) :
    ibGo t 0 ('T' :: 'A' :: v) = 'T' :: 'A' :: ibGo t 0 v := by
  obtain ⟨h1, h2⟩ := noMatch_TA t ht
  simp [ibGo, h1 v, h2 (v)]

theorem trimJS_cons2 {a b : Char} (r : List Char) (ha : isWsJS a = false)
    (hb : isWsJS b = false) :
    ∃ r', trimJS (a :: b :: r) = a :: b :: r' := by
  unfold trimJS
  have hfront : (a :: b :: r).dropWhile isWsJS = a :: b :: r := by
    rw [List.dropWhile_cons, if_neg (by simp [ha])]
  rw [hfront]
  obtain ⟨w, hdec, hws⟩ := trimBack_decomp (a :: b :: r)
  set A := ((a :: b :: r).reverse.dropWhile isWsJS).reverse with hA
  have hlen : 2 ≤ A.length := by
    by_contra hlt
    push_neg at hlt
    have hbw : b ∈ w := by
      have h1 : b ∈ (a :: b :: r).drop 1 := by simp
      rw [hdec] at h1
      cases hAc : A with
      | nil =>
        rw [hAc] at h1
        exact List.mem_of_mem_tail (by simpa using h1)
      | cons x A' =>
        cases A' with
        | nil =>
          rw [hAc] at h1
          simpa using h1
        | cons y A'' =>
          rw [hAc] at hlt
          simp at hlt
          omega
    have := hws b hbw
    rw [hb] at this
    simp at this
  have htake : A = (a :: b :: r).take A.length := by
    conv_rhs => rw [hdec]
    rw [List.take_left]
  obtain ⟨m, hm⟩ : ∃ m, A.length = m + 2 := ⟨A.length - 2, by omega⟩
  refine ⟨r.take m, ?_⟩
  rw [htake, hm]
  simp [List.take_succ_cons]

theorem head_TA (u : List Char) :
    ∀ P0 PS,
      splitNl (insertBreaks probToks (insertBreaks tempoToks (insertBreaks becmgToks
        (insertBreaks fmToks (('T' :: 'A' :: u).take (stopIndex ('T' :: 'A' :: u))))))) =
        P0 :: PS →
      lineOk (trimJS P0) ∨ ¬(5 < (trimJS P0).length) := by
  intro P0 PS hsplit
  have he : 2 ≤ stopIndex ('T' :: 'A' :: u) ∨
      stopIndex ('T' :: 'A' :: u) = ('T' :: 'A' :: u).length := by
    rcases stopIndex_cases ('T' :: 'A' :: u) with h | h
    · exact Or.inr h
    · exact Or.inl (by omega)
  have htake : ∃ v, ('T' :: 'A' :: u).take (stopIndex ('T' :: 'A' :: u)) = 'T' :: 'A' :: v := by
    rcases he with h | h
    · obtain ⟨m, hm⟩ : ∃ m, stopIndex ('T' :: 'A' :: u) = m + 2 :=
        ⟨stopIndex ('T' :: 'A' :: u) - 2, by omega⟩
      exact ⟨u.take m, by rw [hm]; simp [List.take_succ_cons]⟩
    · exact ⟨u, by rw [h, List.take_length]⟩
  obtain ⟨v, hv⟩ := htake
  rw [hv] at hsplit
  simp only [insertBreaks] at hsplit
  rw [ib_TA fmToks (by simp) v, ib_TA becmgToks (by simp) _, ib_TA tempoToks (by simp) _,
    ib_TA probToks (by simp) _] at hsplit
  obtain ⟨p1, ps1, hs1, he1⟩ := @splitNl_cons_of_ne 'T'
    ('A' :: ibGo probToks 0 (ibGo tempoToks 0 (ibGo becmgToks 0 (ibGo fmToks 0 v))))
    (by decide)
  rw [he1] at hsplit
  obtain ⟨p2, ps2, hs2, he2⟩ := @splitNl_cons_of_ne 'A'
    (ibGo probToks 0 (ibGo tempoToks 0 (ibGo becmgToks 0 (ibGo fmToks 0 v)))) (by decide)
  rw [he2] at hs1
  obtain ⟨rfl, rfl⟩ : 'T' :: p1 = P0 ∧ ps1 = PS := by
    constructor
    · exact ((List.cons.injEq _ _ _ _).mp hsplit).1
    · exact ((List.cons.injEq _ _ _ _).mp hsplit).2
  obtain ⟨rfl, rfl⟩ : 'A' :: p2 = p1 ∧ ps2 = ps1 := by
    constructor
    · exact ((List.cons.injEq _ _ _ _).mp hs1).1
    · exact ((List.cons.injEq _ _ _ _).mp hs1).2
  obtain ⟨r', hr'⟩ := @trimJS_cons2 'T' 'A' p2 (by decide) (by decide)
  rw [hr']
  exact Or.inl (lineOk_of_TA r')

theorem head_fm {block0 : List Char} (hm : matchToks fmToks block0 = true) :
    ∀ P0 PS,
      splitNl (insertBreaks probToks (insertBreaks tempoToks (insertBreaks becmgToks
        (insertBreaks fmToks (block0.take (stopIndex block0)))))) = P0 :: PS →
      lineOk (trimJS P0) ∨ ¬(5 < (trimJS P0).length) := by
  intro P0 PS hsplit
  have hmB : matchToks fmToks (block0.take (stopIndex block0)) = true := by
    rcases stopIndex_cases block0 with h | h
    · rw [h, List.take_length]
      exact hm
    · exact matchToks_take hm (by simp only [fmToks, List.length_cons, List.length_nil]; omega)
  obtain ⟨c, cs, hcc⟩ : ∃ c cs, block0.take (stopIndex block0) = c :: cs := by
    cases hx : block0.take (stopIndex block0) with
    | nil => rw [hx] at hmB; simp [fmToks, matchToks] at hmB
    | cons c cs => exact ⟨c, cs, rfl⟩
  rw [hcc] at hsplit
  simp only [insertBreaks] at hsplit
  rw [ib_match0 (hcc ▸ hmB)] at hsplit
  rw [ib_keep_nl _ (becmg_nl_false _), ib_keep_nl _ (tempo_nl_false _),
    ib_keep_nl _ (prob_nl_false _), splitNl_nl] at hsplit
  obtain ⟨rfl, -⟩ : ([] : List Char) = P0 ∧ _ = PS :=
    (List.cons.injEq _ _ _ _).mp hsplit
  exact Or.inr (by simp [trimJS])

theorem lineOk_trim_head10 {d1 d2 d3 d4 : Char}
    (h1 : isDigitC d1 = true) (h2 : isDigitC d2 = true)
    (h3 : isDigitC d3 = true) (h4 : isDigitC d4 = true) (t : List Char) :
    lineOk (trimJS ('B' :: 'E' :: 'C' :: 'M' :: 'G' :: ' ' :: d1 :: d2 :: d3 :: d4 :: t)) := by
  obtain ⟨w, hdecomp, hwsall⟩ :=
    trimBack_decomp ('B' :: 'E' :: 'C' :: 'M' :: 'G' :: ' ' :: d1 :: d2 :: d3 :: d4 :: t)
  have htrim : trimJS ('B' :: 'E' :: 'C' :: 'M' :: 'G' :: ' ' :: d1 :: d2 :: d3 :: d4 :: t) =
      (('B' :: 'E' :: 'C' :: 'M' :: 'G' :: ' ' :: d1 :: d2 :: d3 :: d4 :: t).reverse.dropWhile isWsJS).reverse := by
    unfold trimJS
    rw [List.dropWhile_cons, if_neg (by decide)]
  rw [htrim]
  set A := (('B' :: 'E' :: 'C' :: 'M' :: 'G' :: ' ' :: d1 :: d2 :: d3 :: d4 :: t).reverse.dropWhile isWsJS).reverse
    with hA
  have hAtake : ('B' :: 'E' :: 'C' :: 'M' :: 'G' :: ' ' :: d1 :: d2 :: d3 :: d4 :: t).take A.length = A := by
    rw [hdecomp]
    exact List.take_left _ _
  have hAlen : 10 ≤ A.length := by
    by_contra hlt
    push_neg at hlt
    have hdropw : ('B' :: 'E' :: 'C' :: 'M' :: 'G' :: ' ' :: d1 :: d2 :: d3 :: d4 :: t).drop A.length = w := by
      rw [hdecomp]
      exact List.drop_left _ _
    have hmem : d4 ∈ ('B' :: 'E' :: 'C' :: 'M' :: 'G' :: ' ' :: d1 :: d2 :: d3 :: d4 :: t).drop 9 := by simp
    have h9 : ('B' :: 'E' :: 'C' :: 'M' :: 'G' :: ' ' :: d1 :: d2 :: d3 :: d4 :: t).drop 9 =
        (('B' :: 'E' :: 'C' :: 'M' :: 'G' :: ' ' :: d1 :: d2 :: d3 :: d4 :: t).drop A.length).drop (9 - A.length) := by
      rw [List.drop_drop]
      congr 1
      omega
    rw [h9, hdropw] at hmem
    have := hwsall d4 (List.drop_subset _ _ hmem)
    rw [digit_not_ws h4] at this
    simp at this
  obtain ⟨k, hk⟩ : ∃ k, A.length = k + 10 := ⟨A.length - 10, by omega⟩
  have hAeq : A = 'B' :: 'E' :: 'C' :: 'M' :: 'G' :: ' ' :: d1 :: d2 :: d3 :: d4 :: (t.take k) := by
    rw [← hAtake, hk]
    rfl
  rw [hAeq]
  refine ⟨fun hfm => ?_, fun htempo => ?_,
    fun _ => ⟨⟨d1, d2, _, rfl, h1, h2⟩, ⟨d3, d4, _, rfl, h3, h4⟩⟩⟩
  · rw [fm_data_eq] at hfm
    simp [List.isPrefixOf] at hfm
  · rw [tempo_data_eq] at htempo
    simp [List.isPrefixOf] at htempo

theorem head_becmg {block0 : List Char} (hm : matchToks becmgToks block0 = true) :
    ∀ P0 PS,
      splitNl (insertBreaks probToks (insertBreaks tempoToks (insertBreaks becmgToks
        (insertBreaks fmToks (block0.take (stopIndex block0)))))) = P0 :: PS →
      lineOk (trimJS P0) ∨ ¬(5 < (trimJS P0).length) := by
  intro P0 PS hsplit
  have hblen : 15 ≤ block0.length := by
    have := matchToks_length _ _ hm
    simpa [becmgToks] using this
  by_cases hfull : 15 ≤ stopIndex block0 ∨ stopIndex block0 = block0.length
  · have hmB : matchToks becmgToks (block0.take (stopIndex block0)) = true := by
      rcases hfull with h | h
      · exact matchToks_take hm (by simp only [becmgToks, List.length_cons, List.length_nil]; omega)
      · rw [h, List.take_length]
        exact hm
    have hcopy : ibGo fmToks 0 (block0.take (stopIndex block0)) =
        (block0.take (stopIndex block0)).take becmgToks.length ++
          ibGo fmToks 0 ((block0.take (stopIndex block0)).drop becmgToks.length) := by
      apply ibGo_copy fmToks becmgToks.length _
        (by
          have := matchToks_length _ _ hmB
          omega)
        (disc_becmg_fm hmB)
    have hm1 : matchToks becmgToks (ibGo fmToks 0 (block0.take (stopIndex block0))) = true := by
      rw [hcopy]
      exact matchToks_take_append _ hmB
    obtain ⟨c, cs, hcc⟩ : ∃ c cs, ibGo fmToks 0 (block0.take (stopIndex block0)) = c :: cs := by
      cases hx : ibGo fmToks 0 (block0.take (stopIndex block0)) with
      | nil => rw [hx] at hm1; simp [becmgToks, matchToks] at hm1
      | cons c cs => exact ⟨c, cs, rfl⟩
    simp only [insertBreaks] at hsplit
    rw [hcc, ib_match0 (hcc ▸ hm1)] at hsplit
    rw [ib_keep_nl _ (tempo_nl_false _), ib_keep_nl _ (prob_nl_false _), splitNl_nl] at hsplit
    obtain ⟨rfl, -⟩ : ([] : List Char) = P0 ∧ _ = PS := (List.cons.injEq _ _ _ _).mp hsplit
    exact Or.inr (by simp [trimJS])
  · push_neg at hfull
    obtain ⟨hlt15, hne⟩ := hfull
    have h10 : 10 ≤ stopIndex block0 := by
      rcases stopIndex_cases block0 with h | h
      · exact absurd h hne
      · exact h
    obtain ⟨d1,d2,d3,d4,d5,d6,d7,d8,rest,hb0,h1,h2,h3,h4,h5,h6,h7,h8⟩ := becmg_shape hm
    have htblen : (block0.take (stopIndex block0)).length = stopIndex block0 := by
      simp only [List.length_take]
      omega
    have hnom : ∀ (t : List Tok), (t = fmToks ∨ t = becmgToks ∨ t = tempoToks ∨ t = probToks) →
        ∀ j ≤ (block0.take (stopIndex block0)).length,
          matchToks t ((block0.take (stopIndex block0)).drop j) = false := by
      intro t ht j hj
      by_contra hcon
      rw [Bool.not_eq_false] at hcon
      have hjlt : j < 15 := by rw [htblen] at hj; omega
      have hdt : (block0.take (stopIndex block0)).drop j =
          (block0.drop j).take (stopIndex block0 - j) := List.drop_take _ _ _
      rcases ht with rfl | rfl | rfl | rfl
      · have hin : matchToks fmToks (block0.drop j) = true := matchToks_of_take (hdt ▸ hcon)
        rcases Nat.eq_zero_or_pos j with rfl | hj1
        · rw [List.drop_zero, hb0] at hin
          simp [fmToks, matchToks, charOk] at hin
        · have hd := disc_becmg_fm hm j (by simp only [becmgToks, List.length_cons, List.length_nil]; omega)
          rw [hin] at hd
          simp at hd
      · rcases Nat.eq_zero_or_pos j with rfl | hj1
        · rw [List.drop_zero] at hcon
          have := matchToks_length _ _ hcon
          rw [htblen] at this
          simp only [becmgToks, List.length_cons, List.length_nil] at this
          omega
        · have hin : matchToks becmgToks (block0.drop j) = true := matchToks_of_take (hdt ▸ hcon)
          have hd := disc_becmg_becmg_tail hm j hj1
            (by simp only [becmgToks, List.length_cons, List.length_nil]; omega)
          rw [hin] at hd
          simp at hd
      · have hin : matchToks tempoToks (block0.drop j) = true := matchToks_of_take (hdt ▸ hcon)
        rcases Nat.eq_zero_or_pos j with rfl | hj1
        · rw [List.drop_zero, hb0] at hin
          simp [tempoToks, matchToks, charOk] at hin
        · have hd := disc_becmg_tempo hm j (by simp only [becmgToks, List.length_cons, List.length_nil]; omega)
          rw [hin] at hd
          simp at hd
      · have hin : matchToks probToks (block0.drop j) = true := matchToks_of_take (hdt ▸ hcon)
        rcases Nat.eq_zero_or_pos j with rfl | hj1
        · rw [List.drop_zero, hb0] at hin
          simp [probToks, matchToks, charOk] at hin
        · have hd := disc_becmg_prob hm j (by simp only [becmgToks, List.length_cons, List.length_nil]; omega)
          rw [hin] at hd
          simp at hd
    have hid : insertBreaks probToks (insertBreaks tempoToks (insertBreaks becmgToks
        (insertBreaks fmToks (block0.take (stopIndex block0))))) =
        block0.take (stopIndex block0) := by
      simp only [insertBreaks]
      rw [ibGo_id fmToks _ (hnom fmToks (by simp)), ibGo_id becmgToks _ (hnom becmgToks (by simp)),
        ibGo_id tempoToks _ (hnom tempoToks (by simp)), ibGo_id probToks _ (hnom probToks (by simp))]
    rw [hid] at hsplit
    have hnonl : ∀ c ∈ block0.take (stopIndex block0), c ≠ '\n' := by
      intro c hc hceq
      subst hceq
      have h15' : '\n' ∉ block0.take becmgToks.length :=
        nl_not_in_match becmgToks block0 hm becmg_toks_nonl
      apply h15'
      have heq : block0.take (stopIndex block0) = (block0.take becmgToks.length).take (stopIndex block0) := by
        rw [List.take_take, min_eq_left (by simp only [becmgToks, List.length_cons, List.length_nil]; omega)]
      rw [heq] at hc
      exact List.take_subset _ _ hc
    rw [splitNl_no_nl _ hnonl] at hsplit
    obtain ⟨hP0, -⟩ : block0.take (stopIndex block0) = P0 ∧ _ = PS :=
      (List.cons.injEq _ _ _ _).mp hsplit
    left
    have hdec : block0.take (stopIndex block0) =
        'B' :: 'E' :: 'C' :: 'M' :: 'G' :: ' ' :: d1 :: d2 :: d3 :: d4 ::
          (('/' :: d5 :: d6 :: d7 :: d8 :: rest).take (stopIndex block0 - 10)) := by
      obtain ⟨k, hkk⟩ : ∃ k, stopIndex block0 = k + 10 := ⟨stopIndex block0 - 10, by omega⟩
      rw [hkk, Nat.add_sub_cancel, hb0]
      rfl
    rw [← hP0, hdec]
    exact lineOk_trim_head10 h1 h2 h3 h4 _

theorem collapseWs_no_nl : ∀ (l : List Char), ∀ c ∈ collapseWs l, c ≠ '\n' := by
  intro l
  induction l with
  | nil => intro c hc; simp [collapseWs] at hc
  | cons a l' ih =>
    cases l' with
    | nil =>
      intro c hc
      simp only [collapseWs, List.mem_singleton] at hc
      subst hc
      by_cases hw : isWsJS a = true
      · rw [if_pos hw]; decide
      · rw [if_neg hw]
        intro hEq
        subst hEq
        exact hw (by decide)
    | cons b cs =>
      intro c hc
      simp only [collapseWs] at hc
      by_cases hab : (isWsJS a && isWsJS b) = true
      · rw [if_pos hab] at hc
        exact ih c hc
      · rw [if_neg hab] at hc
        rcases List.mem_cons.mp hc with rfl | hc'
        · by_cases hw : isWsJS a = true
          · rw [if_pos hw]; decide
          · rw [if_neg hw]
            intro hEq
            subst hEq
            exact hw (by decide)
        · exact ih c hc'

theorem prefixTA {pre l : List Char} (h : ('T' :: 'A' :: pre).isPrefixOf l = true) :
    ∃ u, l = 'T' :: 'A' :: u := by
  cases l with
  | nil => simp [List.isPrefixOf] at h
  | cons c1 l1 =>
    cases l1 with
    | nil => simp [List.isPrefixOf] at h
    | cons c2 l2 =>
      simp only [List.isPrefixOf, Bool.and_eq_true, beq_iff_eq] at h
      obtain ⟨rfl, rfl, -⟩ := h
      exact ⟨l2, rfl⟩

theorem tafStartIdx_some {cleanText code : List Char} {i : ℕ}
    (h : tafStartIdx cleanText code = some i) :
    ("TAF: ".data ++ code).isPrefixOf (cleanText.drop i) = true ∨
    ("TAF ".data ++ code).isPrefixOf (cleanText.drop i) = true ∨
    matchToks fmToks (cleanText.drop i) = true ∨
    matchToks becmgToks (cleanText.drop i) = true := by
  unfold tafStartIdx at h
  cases h1 : findIdx ("TAF: ".data ++ code) cleanText with
  | some j =>
    rw [h1] at h
    obtain rfl : j = i := by simpa using h
    exact Or.inl (findIdx_some _ _ _ h1)
  | none =>
    rw [h1] at h
    cases h2 : findIdx ("TAF ".data ++ code) cleanText with
    | some j =>
      rw [h2] at h
      obtain rfl : j = i := by simpa using h
      exact Or.inr (Or.inl (findIdx_some _ _ _ h2))
    | none =>
      rw [h2] at h
      rcases findMarkerIdx_some _ _ h with hf | hb
      · exact Or.inr (Or.inr (Or.inl hf))
      · exact Or.inr (Or.inr (Or.inr hb))

theorem tafLines_lineOk (rawHtml code : List Char) :
    ∀ l ∈ tafLines rawHtml code, lineOk l ∧ l = trimJS l ∧ 5 < l.length := by
  intro l hl
  simp only [tafLines] at hl
  cases hstart : tafStartIdx (collapseWs (stripTags rawHtml)) code with
  | none =>
    rw [hstart] at hl
    simp at hl
  | some i =>
    rw [hstart] at hl
    simp only [List.mem_filter, List.mem_map, decide_eq_true_eq] at hl
    obtain ⟨⟨p, hp, rfl⟩, hlen⟩ := hl
    refine ⟨?_, (trimJS_idem p).symm, hlen⟩
    have hnl : ∀ c ∈ ((collapseWs (stripTags rawHtml)).drop i).take
        (stopIndex ((collapseWs (stripTags rawHtml)).drop i)), c ≠ '\n' := by
      intro c hc
      exact collapseWs_no_nl (stripTags rawHtml) c
        (List.drop_subset _ _ (List.take_subset _ _ hc))
    cases hsp : splitNl (insertBreaks probToks (insertBreaks tempoToks (insertBreaks becmgToks
        (insertBreaks fmToks (((collapseWs (stripTags rawHtml)).drop i).take
          (stopIndex ((collapseWs (stripTags rawHtml)).drop i))))))) with
    | nil => exact absurd hsp (splitNl_ne_nil _)
    | cons P0 PS =>
      rw [hsp] at hp
      rcases List.mem_cons.mp hp with rfl | hp'
      · rcases tafStartIdx_some hstart with hTA | hTA | hfm | hbec
        · have hTA' : ('T' :: 'A' :: ('F' :: ':' :: ' ' :: code)).isPrefixOf
              ((collapseWs (stripTags rawHtml)).drop i) = true := hTA
          obtain ⟨u, hu⟩ := prefixTA hTA'
          rw [hu] at hsp
          rcases head_TA u p PS hsp with h | h
          · exact h
          · exact absurd hlen h
        · have hTA' : ('T' :: 'A' :: ('F' :: ' ' :: code)).isPrefixOf
              ((collapseWs (stripTags rawHtml)).drop i) = true := hTA
          obtain ⟨u, hu⟩ := prefixTA hTA'
          rw [hu] at hsp
          rcases head_TA u p PS hsp with h | h
          · exact h
          · exact absurd hlen h
        · rcases head_fm hfm p PS hsp with h | h
          · exact h
          · exact absurd hlen h
        · rcases head_becmg hbec p PS hsp with h | h
          · exact h
          · exact absurd hlen h
      · have htail := splitNl_tail_marker [probToks, tempoToks, becmgToks, fmToks]
          pats4_nonl _ (formatted_nlOk _ hnl) p (by rw [hsp, List.tail_cons]; exact hp')
        exact lineOk_of_any_marker htail

theorem parseTafCore_good (rawHtml code : List Char) :
    ∀ e ∈ parseTafCore rawHtml code,
      goodEntry e ∧ e.raw = trimJS e.raw ∧ 5 < e.raw.length := by
  intro e he
  simp only [parseTafCore, List.mem_map] at he
  obtain ⟨p, hmem, rfl⟩ := he
  obtain ⟨hok, htrim, hlen⟩ := tafLines_lineOk rawHtml code p.2 (mem_enumIdx 0 _ p hmem)
  obtain ⟨hgood, hraw⟩ := classify_good p.1 p.2 hok
  refine ⟨hgood, ?_, ?_⟩
  · rw [hraw]
    exact htrim
  · rw [hraw]
    exact hlen

/-- **C10.** Every entry `parseTaf` produces has non-null day/hour exactly when
its kind is FM, TEMPO or BECMG; in that case both are integers between 0 and
99 read off digit characters; HEADER and BASE entries have null day and hour;
and every entry's raw text is trimmed and longer than 5 characters. -/
theorem C10_entry_invariants (rawHtml code : String) :
    ∀ e ∈ parseTaf rawHtml code,
      ((e.day ≠ none ∧ e.hour ≠ none) ↔
        (e.type = TafType.FM ∨ e.type = TafType.TEMPO ∨ e.type = TafType.BECMG)) ∧
      ((e.type = TafType.FM ∨ e.type = TafType.TEMPO ∨ e.type = TafType.BECMG) →
        ∃ d h : ℤ, e.day = some (JsNum.int d) ∧ e.hour = some (JsNum.int h) ∧
          0 ≤ d ∧ d ≤ 99 ∧ 0 ≤ h ∧ h ≤ 99) ∧
      ((e.type = TafType.HEADER ∨ e.type = TafType.BASE) →
        e.day = none ∧ e.hour = none) ∧
      e.raw = trimJS e.raw ∧ 5 < e.raw.length := by
  intro e he
  obtain ⟨⟨hsome, hnone⟩, htrim, hlen⟩ := parseTafCore_good rawHtml.data code.data e he
  refine ⟨⟨?_, ?_⟩, hsome, hnone, htrim, hlen⟩
  · intro hd
    by_contra hcon
    have hhb : e.type = TafType.HEADER ∨ e.type = TafType.BASE := by
      cases htype : e.type with
      | BASE => exact Or.inr rfl
      | FM => exact absurd (Or.inl htype) hcon
      | TEMPO => exact absurd (Or.inr (Or.inl htype)) hcon
      | BECMG => exact absurd (Or.inr (Or.inr htype)) hcon
      | HEADER => exact Or.inl rfl
    exact hd.1 (hnone hhb).1
  · intro ht
    obtain ⟨d, h, hd, hh, -⟩ := hsome ht
    refine ⟨?_, ?_⟩
    · rw [hd]; simp
    · rw [hh]; simp

/-- **C8.** The parser `parseTaf` is a total function and degrades rather than fails: in
every entry it produces, the day and hour fields are either null or an actual
integer (never `NaN`), and the gust field is either null or a number. -/
theorem C8_parseTaf_no_failure (rawHtml code : String) :
    ∀ e ∈ parseTaf rawHtml code,
      (e.day = none ∨ ∃ d : ℤ, e.day = some (JsNum.int d)) ∧
      (e.hour = none ∨ ∃ h : ℤ, e.hour = some (JsNum.int h)) ∧
      (e.gust = none ∨ ∃ g : ℕ, e.gust = some g) := by
  intro e he
  obtain ⟨⟨hsome, hnone⟩, -, -⟩ := parseTafCore_good rawHtml.data code.data e he
  have hgust : e.gust = none ∨ ∃ g : ℕ, e.gust = some g := by
    cases hg : e.gust with
    | none => exact Or.inl rfl
    | some g => exact Or.inr ⟨g, rfl⟩
  have hcases : (e.type = TafType.FM ∨ e.type = TafType.TEMPO ∨ e.type = TafType.BECMG) ∨
      (e.type = TafType.HEADER ∨ e.type = TafType.BASE) := by
    cases e.type <;> simp
  rcases hcases with h | h
  · obtain ⟨d, hr, hd, hhour, -⟩ := hsome h
    exact ⟨Or.inr ⟨d, hd⟩, Or.inr ⟨hr, hhour⟩, hgust⟩
  · obtain ⟨h1, h2⟩ := hnone h
    exact ⟨Or.inl h1, Or.inl h2, hgust⟩

/-- The FM entry of the worked example (a concrete output of `parseTaf`). -/
def fmEntryEx : TafEntry :=
  { raw := "FM121800 20015G22KT".data, gust := some 22, type := TafType.FM,
    day := some (JsNum.int 12), hour := some (JsNum.int 18) }

/-- The BECMG entry of the worked example. -/
def becmgEntryEx : TafEntry :=
  { raw := "BECMG 1300/1302 22010KT".data, gust := none, type := TafType.BECMG,
    day := some (JsNum.int 13), hour := some (JsNum.int 0) }

theorem C10_witness :
    (fmEntryEx ∈
      parseTaf "<b>TAF: KMIE</b> 121130Z 1212/1312 18012KT FM121800 20015G22KT BECMG 1300/1302 22010KT METAR ..." "KMIE") ∧
    (((fmEntryEx.day ≠ none ∧ fmEntryEx.hour ≠ none) ↔
        (fmEntryEx.type = TafType.FM ∨ fmEntryEx.type = TafType.TEMPO ∨
          fmEntryEx.type = TafType.BECMG)) ∧
      ((fmEntryEx.type = TafType.FM ∨ fmEntryEx.type = TafType.TEMPO ∨
          fmEntryEx.type = TafType.BECMG) →
        ∃ d h : ℤ, fmEntryEx.day = some (JsNum.int d) ∧ fmEntryEx.hour = some (JsNum.int h) ∧
          0 ≤ d ∧ d ≤ 99 ∧ 0 ≤ h ∧ h ≤ 99) ∧
      ((fmEntryEx.type = TafType.HEADER ∨ fmEntryEx.type = TafType.BASE) →
        fmEntryEx.day = none ∧ fmEntryEx.hour = none) ∧
      fmEntryEx.raw = trimJS fmEntryEx.raw ∧ 5 < fmEntryEx.raw.length) :=
  ⟨by decide,
   C10_entry_invariants
    "<b>TAF: KMIE</b> 121130Z 1212/1312 18012KT FM121800 20015G22KT BECMG 1300/1302 22010KT METAR ..."
    "KMIE" fmEntryEx (by decide)⟩

theorem C8_witness :
    (becmgEntryEx ∈
      parseTaf "<b>TAF: KMIE</b> 121130Z 1212/1312 18012KT FM121800 20015G22KT BECMG 1300/1302 22010KT METAR ..." "KMIE") ∧
    ((becmgEntryEx.day = none ∨ ∃ d : ℤ, becmgEntryEx.day = some (JsNum.int d)) ∧
     (becmgEntryEx.hour = none ∨ ∃ h : ℤ, becmgEntryEx.hour = some (JsNum.int h)) ∧
     (becmgEntryEx.gust = none ∨ ∃ g : ℕ, becmgEntryEx.gust = some g)) :=
  ⟨by decide,
   C8_parseTaf_no_failure
    "<b>TAF: KMIE</b> 121130Z 1212/1312 18012KT FM121800 20015G22KT BECMG 1300/1302 22010KT METAR ..."
    "KMIE" becmgEntryEx (by decide)⟩
